import Mathlib

/-!
Verification development for the `expando-global/mongodb-storage` repository.

The storage layer (`src/lib/storage.ts`) is embedded shallowly:
  * JSON-like document values are `JValue`; JavaScript objects preserve key
    insertion order, so objects are ordered association lists.
  * The Structural Differ is the external `deep-diff` library, which is not
    part of the repository sources; it is modelled from the specification
    (spec 4.1) and anchored on the repository test
    (`src/unnamed/part_004`, test `creating a changelog`), which pins the
    exact edit list and ordering that `diff` produces on the running example.
  * Stateful operations are modelled by explicit state passing; `new Date()`
    timestamps become an explicit `now` argument; `serialize` (a JSON
    round-trip plus ObjectId revival) is the identity on JSON-like values.
-/

set_option autoImplicit false

namespace MongodbStorage

/-- JSON-like document values.  Objects keep field insertion order, as
JavaScript objects do. -/
inductive JValue where
  | null : JValue
  | bool (b : Bool) : JValue
  | num (n : Int) : JValue
  | str (s : String) : JValue
  | arr (elems : List JValue) : JValue
  | obj (fields : List (String × JValue)) : JValue

/-- First binding of key `k` in an object's field list (JavaScript property
lookup). -/
def lookupF (k : String) : List (String × JValue) → Option JValue
  | [] => none
  | (k2, v) :: fs => if k2 = k then some v else lookupF k fs

/-- Does the object have property `k`? -/
def hasKey (fs : List (String × JValue)) (k : String) : Bool :=
  fs.any (fun p => p.1 == k)

/-- Overwrite the value stored under key `k` (all occurrences; on
well-formed objects keys are unique). -/
def modifyField (k : String) (f : JValue → JValue) (fs : List (String × JValue)) :
    List (String × JValue) :=
  fs.map (fun p => if p.1 = k then (p.1, f p.2) else p)

/-- JavaScript `delete o[k]`. -/
def removeField (k : String) (fs : List (String × JValue)) : List (String × JValue) :=
  fs.filter (fun p => p.1 != k)

/-- JavaScript `o[k] = v`: overwrite in place when present, else append the
new property. -/
def setField (fs : List (String × JValue)) (k : String) (v : JValue) :
    List (String × JValue) :=
  if hasKey fs k then modifyField k (fun _ => v) fs else fs ++ [(k, v)]

/-- Apply `f` to the element at position `i` (no-op when out of range). -/
def modifyIdx : Nat → (JValue → JValue) → List JValue → List JValue
  | _, _, [] => []
  | 0, f, x :: xs => f x :: xs
  | n+1, f, x :: xs => x :: modifyIdx n f xs

/-- JavaScript `a[i] = v` on arrays: replace in range, otherwise extend the
array so that `v` sits at position `i` (JavaScript fills the holes; they
read back as `null` after a JSON round-trip). -/
def setExtend (xs : List JValue) (i : Nat) (v : JValue) : List JValue :=
  if i < xs.length then xs.set i v
  else xs ++ List.replicate (i - xs.length) JValue.null ++ [v]

/-- Object keys are pairwise distinct. -/
def keysNodup : List (String × JValue) → Bool
  | [] => true
  | (k, _) :: fs => !(hasKey fs k) && keysNodup fs

mutual
/-- Well-formed JSON value: every object in it has pairwise distinct keys
(true of every value produced by `JSON.parse`). -/
def wf : JValue → Bool
  | .null => true
  | .bool _ => true
  | .num _ => true
  | .str _ => true
  | .arr xs => wfList xs
  | .obj fs => keysNodup fs && wfFields fs

def wfList : List JValue → Bool
  | [] => true
  | x :: xs => wf x && wfList xs

def wfFields : List (String × JValue) → Bool
  | [] => true
  | (_, v) :: fs => wf v && wfFields fs
end

/-- One step of a `deep-diff` path: an object key or an array index. -/
inductive PathElem where
  | key (k : String)
  | idx (i : Nat)
deriving DecidableEq

/-- `deep-diff` edit records: kind `N` (new), `D` (deleted), `E` (edited)
and `A` (array change wrapping a pathless `N`/`D` item). -/
inductive Edit where
  | new (path : List PathElem) (rhs : JValue)
  | deleted (path : List PathElem) (lhs : JValue)
  | edited (path : List PathElem) (lhs rhs : JValue)
  | arrayChange (path : List PathElem) (index : Nat) (item : Edit)

/-- Prepend one path step to an edit record (used when the differ descends
into an object field or array slot). -/
def pathCons (q : PathElem) : Edit → Edit
  | .new p r => .new (q :: p) r
  | .deleted p l => .deleted (q :: p) l
  | .edited p l r => .edited (q :: p) l r
  | .arrayChange p i it => .arrayChange (q :: p) i it

/-- `A`/`N` records for array elements appended past the common length,
in ascending index order starting at `n` (the differ emits them reversed,
i.e. highest index first). -/
def newEditsFrom (n : Nat) : List JValue → List Edit
  | [] => []
  | w :: ws => Edit.arrayChange [] n (.new [] w) :: newEditsFrom (n+1) ws

/-- `A`/`D` records for array elements removed past the common length. -/
def delEditsFrom (n : Nat) : List JValue → List Edit
  | [] => []
  | w :: ws => Edit.arrayChange [] n (.deleted [] w) :: delEditsFrom (n+1) ws

/-- Modelled from the spec: array-length part of the Structural Differ
(spec 4.1) — elements beyond the shorter length are reported as
`ArrayChange` records wrapping the added or removed element, highest index
first, before the common prefix is diffed (order anchored on the
repository test `creating a changelog`). -/
def diffBeyond (xs ys : List JValue) : List Edit :=
  if xs.length < ys.length then (newEditsFrom xs.length (ys.drop xs.length)).reverse
  else (delEditsFrom ys.length (xs.drop ys.length)).reverse

/-- Modelled from the spec: keys present only in the after-object become
`New` records, in the after-object's key order. -/
def diffFieldsR (fs gs : List (String × JValue)) : List Edit :=
  (gs.filter (fun p => !(hasKey fs p.1))).map (fun p => Edit.new [PathElem.key p.1] p.2)

mutual
/-- Modelled from the spec: the Structural Differ (spec 4.1, the external
`deep-diff` library).  Walks both values in parallel by key (objects) or by
index (arrays); a scalar changed in place yields `Edited`, a key only in
the after-state `New`, only in the before-state `Deleted`, and array-length
changes `ArrayChange` records; two deeply equal values yield `[]`. -/
def diffV : JValue → JValue → List Edit
  | .null, .null => []
  | .bool x, .bool y => if x = y then [] else [.edited [] (.bool x) (.bool y)]
  | .num x, .num y => if x = y then [] else [.edited [] (.num x) (.num y)]
  | .str x, .str y => if x = y then [] else [.edited [] (.str x) (.str y)]
  | .arr xs, .arr ys => diffBeyond xs ys ++ diffCommon 0 xs ys
  | .obj fs, .obj gs => diffFieldsL fs gs ++ diffFieldsR fs gs
  | a, b => [.edited [] a b]

/-- Positional diff of the common prefix of two arrays; `n` is the absolute
index of the current pair. -/
def diffCommon : Nat → List JValue → List JValue → List Edit
  | n, x :: xs, y :: ys => (diffV x y).map (pathCons (.idx n)) ++ diffCommon (n+1) xs ys
  | _, _, _ => []

/-- Walk the before-object's keys in order: shared keys are diffed
recursively, keys missing from the after-object become `Deleted`. -/
def diffFieldsL : List (String × JValue) → List (String × JValue) → List Edit
  | [], _ => []
  | (k, v) :: fs, gs =>
      (match lookupF k gs with
        | some w => (diffV v w).map (pathCons (.key k))
        | none => [Edit.deleted [PathElem.key k] v]) ++ diffFieldsL fs gs
end

/-- Navigate a path and rewrite the value found there (no-op when the path
does not match the value's shape). -/
def applyAt : JValue → List PathElem → (JValue → JValue) → JValue
  | v, [], f => f v
  | .obj fs, .key k :: p, f => .obj (modifyField k (fun w => applyAt w p f) fs)
  | .arr xs, .idx i :: p, f => .arr (modifyIdx i (fun w => applyAt w p f) xs)
  | v, _ :: _, _ => v

/-- Apply the pathless item of an `ArrayChange` at index `i`: an `N` item
places the new element at position `i`, a `D` item removes position `i`
(the interpretation of `ArrayChange` as insert/remove at the given index). -/
def applyArrayItem (xs : List JValue) (i : Nat) : Edit → List JValue
  | .new _ r => setExtend xs i r
  | .edited _ _ r => setExtend xs i r
  | .deleted _ _ => xs.eraseIdx i
  | .arrayChange _ _ _ => xs

/-- Apply one edit to a value: `New` inserts at its path, `Deleted` removes,
`Edited` replaces, `ArrayChange` inserts/removes at the given index of the
array at its path. -/
def applyEdit (v : JValue) : Edit → JValue
  | .edited p _ r => applyAt v p (fun _ => r)
  | .new p r =>
      match p.dropLast, p.getLast? with
      | _, none => r
      | q, some (.key k) => applyAt v q (fun w =>
          match w with
          | .obj fs => .obj (setField fs k r)
          | w2 => w2)
      | q, some (.idx i) => applyAt v q (fun w =>
          match w with
          | .arr xs => .arr (setExtend xs i r)
          | w2 => w2)
  | .deleted p _ =>
      match p.dropLast, p.getLast? with
      | _, none => v
      | q, some (.key k) => applyAt v q (fun w =>
          match w with
          | .obj fs => .obj (removeField k fs)
          | w2 => w2)
      | q, some (.idx i) => applyAt v q (fun w =>
          match w with
          | .arr xs => .arr (xs.eraseIdx i)
          | w2 => w2)
  | .arrayChange p i item => applyAt v p (fun w =>
      match w with
      | .arr xs => .arr (applyArrayItem xs i item)
      | w2 => w2)

/-- Apply a sequence of edits left to right. -/
def applyEdits (es : List Edit) (v : JValue) : JValue :=
  es.foldl applyEdit v

mutual
/-- JSON equality as JavaScript deep-equality sees it: object key order is
irrelevant, array order matters. -/
def eqv : JValue → JValue → Bool
  | .null, .null => true
  | .bool x, .bool y => x == y
  | .num x, .num y => x == y
  | .str x, .str y => x == y
  | .arr xs, .arr ys => eqvList xs ys
  | .obj fs, .obj gs => eqvFieldsL fs gs && gs.all (fun p => hasKey fs p.1)
  | _, _ => false

def eqvList : List JValue → List JValue → Bool
  | [], [] => true
  | x :: xs, y :: ys => eqv x y && eqvList xs ys
  | _, _ => false

def eqvFieldsL : List (String × JValue) → List (String × JValue) → Bool
  | [], _ => true
  | (k, v) :: fs, gs =>
      (match lookupF k gs with
        | some w => eqv v w
        | none => false) && eqvFieldsL fs gs
end

/-- JavaScript `Object.assign(cloneDeep(fs), us)`: shallow merge of the
top-level fields of `us` over `fs` — existing keys keep their position and
take the new value, keys only in `us` are appended in `us` order. -/
def mergeFields (fs us : List (String × JValue)) : List (String × JValue) :=
  fs.map (fun p => (p.1, (lookupF p.1 us).getD p.2)) ++
    us.filter (fun p => !(hasKey fs p.1))

/-- Request context (`expando-request-context` collaborator). -/
structure IRequestContext where
  token : String
  ip : String
  endpoint : String

/-- One changelog entry (`src/schemas/changelog.ts`); `changes` is the
`deep-diff` edit list after its JSON round-trip (the identity here). -/
structure IChangelog where
  ip : String
  token : String
  endpoint : String
  timestamp : Nat
  changes : List Edit

/-- `createChangelog` (`src/lib/storage.ts` lines 33-51): shallow-merges
`updates` over a deep copy of `originalOrder`, diffs the two, and stamps
the entry with the request context; `new Date()` is the explicit `now`
argument, and `diff` returning `undefined` for equal inputs corresponds to
`diffV` returning `[]`. -/
def createChangelog (rc : IRequestContext) (now : Nat)
    (originalOrder updates : List (String × JValue)) : IChangelog :=
  { ip := rc.ip
    token := rc.token
    endpoint := rc.endpoint
    timestamp := now
    changes := diffV (.obj originalOrder) (.obj (mergeFields originalOrder updates)) }


/-! ### Basic facts about the embedding -/

/-- Strong induction on the size of a `JValue` (the nested induction
principle used throughout). -/
theorem JValue.sind (P : JValue → Prop)
    (h : ∀ v, (∀ w, sizeOf w < sizeOf v → P w) → P v) : ∀ v, P v := by
  intro v
  have key : ∀ n w, sizeOf w < n → P w := by
    intro n
    induction n with
    | zero => intro w hw; omega
    | succ n ih => intro w hw; exact h w (fun u hu => ih u (by omega))
  exact key (sizeOf v + 1) v (by omega)

theorem sizeOf_mem_arr {x : JValue} {xs : List JValue} (hx : x ∈ xs) :
    sizeOf x < sizeOf (JValue.arr xs) := by
  have h1 := List.sizeOf_lt_of_mem hx
  simp only [JValue.arr.sizeOf_spec]
  omega

theorem sizeOf_mem_obj {p : String × JValue} {fs : List (String × JValue)} (hp : p ∈ fs) :
    sizeOf p.2 < sizeOf (JValue.obj fs) := by
  have h1 := List.sizeOf_lt_of_mem hp
  obtain ⟨k, v⟩ := p
  simp only [JValue.obj.sizeOf_spec]
  simp only [Prod.mk.sizeOf_spec] at h1
  omega

theorem sizeOf_lookupF {k : String} {fs : List (String × JValue)} {v : JValue}
    (h : lookupF k fs = some v) : sizeOf v < sizeOf (JValue.obj fs) := by
  induction fs with
  | nil => simp [lookupF] at h
  | cons p fs ih =>
      obtain ⟨k2, w⟩ := p
      by_cases hk : k2 = k
      · simp [lookupF, hk] at h
        subst h
        have := @sizeOf_mem_obj (k2, w) ((k2, w) :: fs)
          (List.mem_cons_self _ _)
        simpa using this
      · simp [lookupF, hk] at h
        have := ih h
        simp only [JValue.obj.sizeOf_spec] at *
        simp only [List.cons.sizeOf_spec] at *
        omega

/-! Field-list helpers -/

theorem hasKey_iff {fs : List (String × JValue)} {k : String} :
    hasKey fs k = true ↔ ∃ v, (k, v) ∈ fs := by
  simp only [hasKey, List.any_eq_true, beq_iff_eq]
  constructor
  · rintro ⟨p, hp, hk⟩
    exact ⟨p.2, by rwa [← hk, Prod.mk.eta]⟩
  · rintro ⟨v, hv⟩
    exact ⟨(k, v), hv, rfl⟩

theorem hasKey_eq_false {fs : List (String × JValue)} {k : String} :
    hasKey fs k = false ↔ ∀ v, (k, v) ∉ fs := by
  rw [← Bool.not_eq_true, hasKey_iff]
  push_neg
  rfl

theorem hasKey_append {as bs : List (String × JValue)} {k : String} :
    hasKey (as ++ bs) k = (hasKey as k || hasKey bs k) := by
  simp [hasKey, List.any_append]

@[simp] theorem hasKey_nil {k : String} : hasKey [] k = false := rfl

theorem hasKey_cons {p : String × JValue} {fs : List (String × JValue)} {k : String} :
    hasKey (p :: fs) k = ((p.1 == k) || hasKey fs k) := by
  simp [hasKey]

theorem lookupF_mem {k : String} {fs : List (String × JValue)} {v : JValue}
    (h : lookupF k fs = some v) : (k, v) ∈ fs := by
  induction fs with
  | nil => simp [lookupF] at h
  | cons p fs ih =>
      obtain ⟨k2, w⟩ := p
      by_cases hk : k2 = k
      · simp [lookupF, hk] at h
        subst hk h
        exact List.mem_cons_self _ _
      · simp [lookupF, hk] at h
        exact List.mem_cons_of_mem _ (ih h)

theorem lookupF_eq_none {k : String} {fs : List (String × JValue)} :
    lookupF k fs = none ↔ hasKey fs k = false := by
  induction fs with
  | nil => simp [lookupF]
  | cons p fs ih =>
      obtain ⟨k2, w⟩ := p
      by_cases hk : k2 = k
      · simp [lookupF, hk, hasKey_cons]
      · simp [lookupF, hk, hasKey_cons, ih]

theorem lookupF_isSome_of_hasKey {k : String} {fs : List (String × JValue)}
    (h : hasKey fs k = true) : ∃ v, lookupF k fs = some v := by
  cases hl : lookupF k fs with
  | none => rw [lookupF_eq_none] at hl; rw [hl] at h; cases h
  | some v => exact ⟨v, rfl⟩

theorem lookupF_of_mem_nodup {k : String} {v : JValue} {fs : List (String × JValue)}
    (hnd : keysNodup fs = true) (hmem : (k, v) ∈ fs) : lookupF k fs = some v := by
  induction fs with
  | nil => cases hmem
  | cons p fs ih =>
      obtain ⟨k2, w⟩ := p
      simp only [keysNodup, Bool.and_eq_true, Bool.not_eq_true'] at hnd
      rcases List.mem_cons.mp hmem with heq | htail
      · obtain ⟨hk, hv⟩ := Prod.mk.injEq .. ▸ heq
        simp [lookupF, hk, hv]
      · have hne : k2 ≠ k := by
          intro he
          subst he
          have : hasKey fs k2 = true := hasKey_iff.mpr ⟨v, htail⟩
          rw [hnd.1] at this; cases this
        simp [lookupF, hne, ih hnd.2 htail]

theorem keysNodup_cons {p : String × JValue} {fs : List (String × JValue)} :
    keysNodup (p :: fs) = true ↔ hasKey fs p.1 = false ∧ keysNodup fs = true := by
  obtain ⟨k, v⟩ := p
  simp [keysNodup]

theorem keysNodup_append {as bs : List (String × JValue)} :
    keysNodup (as ++ bs) = true ↔
      keysNodup as = true ∧ keysNodup bs = true ∧
        ∀ k, hasKey as k = true → hasKey bs k = false := by
  induction as with
  | nil => simp [keysNodup]
  | cons p as ih =>
      obtain ⟨k, v⟩ := p
      simp only [List.cons_append, keysNodup_cons, ih, hasKey_append, hasKey_cons,
        Bool.or_eq_false_iff]
      constructor
      · rintro ⟨⟨h1, h2⟩, h3, h4, h5⟩
        refine ⟨⟨h1, h3⟩, h4, ?_⟩
        intro k2 hk2
        rcases Bool.or_eq_true _ _ |>.mp hk2 with he | hm
        · have : k = k2 := by simpa using he
          subst this; exact h2
        · exact h5 k2 hm
      · rintro ⟨⟨h1, h3⟩, h4, h5⟩
        refine ⟨⟨h1, ?_⟩, h3, h4, ?_⟩
        · exact h5 k (by simp)
        · intro k2 hk2
          exact h5 k2 (by simp [hk2])

/-! `modifyField`, `removeField`, `setField`, `modifyIdx` -/

theorem modifyField_of_not_has {k : String} {f : JValue → JValue}
    {fs : List (String × JValue)} (h : hasKey fs k = false) :
    modifyField k f fs = fs := by
  induction fs with
  | nil => rfl
  | cons p fs ih =>
      rw [hasKey_cons, Bool.or_eq_false_iff] at h
      have hne : p.1 ≠ k := by simpa using h.1
      have tail := ih h.2
      simp only [modifyField, List.map_cons] at tail ⊢
      rw [if_neg hne, tail]

theorem modifyField_append {k : String} {f : JValue → JValue}
    {as bs : List (String × JValue)} :
    modifyField k f (as ++ bs) = modifyField k f as ++ modifyField k f bs := by
  simp [modifyField]

theorem modifyField_cons_self {k : String} {v : JValue} {f : JValue → JValue}
    {fs : List (String × JValue)} :
    modifyField k f ((k, v) :: fs) = (k, f v) :: modifyField k f fs := by
  simp [modifyField]

theorem modifyField_append_cons {k : String} {v : JValue} {f : JValue → JValue}
    {pre post : List (String × JValue)}
    (hpre : hasKey pre k = false) (hpost : hasKey post k = false) :
    modifyField k f (pre ++ (k, v) :: post) = pre ++ (k, f v) :: post := by
  rw [modifyField_append, modifyField_cons_self, modifyField_of_not_has hpre,
    modifyField_of_not_has hpost]

theorem removeField_of_not_has {k : String} {fs : List (String × JValue)}
    (h : hasKey fs k = false) : removeField k fs = fs := by
  induction fs with
  | nil => rfl
  | cons p fs ih =>
      rw [hasKey_cons, Bool.or_eq_false_iff] at h
      have hne : p.1 ≠ k := by simpa using h.1
      have tail := ih h.2
      have hbne : (p.1 != k) = true := by simpa using hne
      simp only [removeField, List.filter_cons, hbne, if_true] at tail ⊢
      rw [tail]

theorem removeField_append_cons {k : String} {v : JValue}
    {pre post : List (String × JValue)}
    (hpre : hasKey pre k = false) (hpost : hasKey post k = false) :
    removeField k (pre ++ (k, v) :: post) = pre ++ post := by
  simp only [removeField, List.filter_append, List.filter_cons]
  simp only [bne_self_eq_false]
  rw [show (pre.filter (fun p => p.1 != k)) = pre from ?_,
      show (post.filter (fun p => p.1 != k)) = post from ?_]
  · rfl
  · exact removeField_of_not_has hpost
  · exact removeField_of_not_has hpre

theorem setField_of_not_has {k : String} {v : JValue} {fs : List (String × JValue)}
    (h : hasKey fs k = false) : setField fs k v = fs ++ [(k, v)] := by
  simp [setField, h]

theorem modifyIdx_id {n : Nat} {zs : List JValue} :
    modifyIdx n (fun x => x) zs = zs := by
  induction zs generalizing n with
  | nil => cases n <;> rfl
  | cons z zs ih =>
      cases n with
      | zero => rfl
      | succ m => simp [modifyIdx, ih]

theorem modifyIdx_comp {n : Nat} {f g : JValue → JValue} {zs : List JValue} :
    modifyIdx n g (modifyIdx n f zs) = modifyIdx n (fun x => g (f x)) zs := by
  induction zs generalizing n with
  | nil => cases n <;> rfl
  | cons z zs ih =>
      cases n with
      | zero => rfl
      | succ m => simp [modifyIdx, ih]

theorem modifyIdx_append_cons {f : JValue → JValue} {pre post : List JValue}
    {x : JValue} :
    modifyIdx pre.length f (pre ++ x :: post) = pre ++ f x :: post := by
  induction pre with
  | nil => rfl
  | cons p pre ih => simp [modifyIdx, ih]

theorem set_append_len {A B : List JValue} {x w : JValue} :
    (A ++ x :: B).set A.length w = A ++ w :: B := by
  induction A with
  | nil => rfl
  | cons a A ih => simp [List.set, ih]

theorem eraseIdx_append_len {A B : List JValue} {x : JValue} :
    (A ++ x :: B).eraseIdx A.length = A ++ B := by
  induction A with
  | nil => rfl
  | cons a A ih => simp [List.eraseIdx, ih]


/-! `wf` and `eqv` characterizations -/

theorem wfList_iff {xs : List JValue} : wfList xs = true ↔ ∀ x ∈ xs, wf x = true := by
  induction xs with
  | nil => simp [wfList]
  | cons x xs ih => simp [wfList, Bool.and_eq_true, ih]

theorem wfFields_iff {fs : List (String × JValue)} :
    wfFields fs = true ↔ ∀ p ∈ fs, wf p.2 = true := by
  induction fs with
  | nil => simp [wfFields]
  | cons p fs ih =>
      obtain ⟨k, v⟩ := p
      simp [wfFields, Bool.and_eq_true, ih]

theorem wf_arr_iff {xs : List JValue} :
    wf (.arr xs) = true ↔ ∀ x ∈ xs, wf x = true := by
  simp [wf, wfList_iff]

theorem wf_obj_iff {fs : List (String × JValue)} :
    wf (.obj fs) = true ↔ keysNodup fs = true ∧ ∀ p ∈ fs, wf p.2 = true := by
  simp [wf, Bool.and_eq_true, wfFields_iff]

theorem eqvList_length {xs ys : List JValue} (h : eqvList xs ys = true) :
    xs.length = ys.length := by
  induction xs generalizing ys with
  | nil => cases ys with
      | nil => rfl
      | cons y ys => simp [eqvList] at h
  | cons x xs ih => cases ys with
      | nil => simp [eqvList] at h
      | cons y ys =>
          simp only [eqvList, Bool.and_eq_true] at h
          simp [ih h.2]

theorem eqvList_append {A B A2 B2 : List JValue}
    (h1 : eqvList A B = true) (h2 : eqvList A2 B2 = true) :
    eqvList (A ++ A2) (B ++ B2) = true := by
  induction A generalizing B with
  | nil => cases B with
      | nil => simpa using h2
      | cons b B => simp [eqvList] at h1
  | cons a A ih => cases B with
      | nil => simp [eqvList] at h1
      | cons b B =>
          simp only [eqvList, Bool.and_eq_true] at h1
          simp only [List.cons_append, eqvList, Bool.and_eq_true]
          exact ⟨h1.1, ih h1.2⟩

theorem eqvList_self {xs : List JValue} (h : ∀ x ∈ xs, eqv x x = true) :
    eqvList xs xs = true := by
  induction xs with
  | nil => rfl
  | cons x xs ih =>
      simp only [eqvList, Bool.and_eq_true]
      exact ⟨h x (List.mem_cons_self _ _),
        ih (fun y hy => h y (List.mem_cons_of_mem _ hy))⟩

theorem eqvFieldsL_iff {fs gs : List (String × JValue)} :
    eqvFieldsL fs gs = true ↔
      ∀ p ∈ fs, ∃ w, lookupF p.1 gs = some w ∧ eqv p.2 w = true := by
  induction fs with
  | nil => simp [eqvFieldsL]
  | cons p fs ih =>
      obtain ⟨k, v⟩ := p
      cases hw : lookupF k gs with
      | none =>
          simp only [eqvFieldsL]
          rw [hw]
          simp only [Bool.false_and]
          constructor
          · intro hfalse; cases hfalse
          · intro hall
            obtain ⟨w, hw2, -⟩ := hall (k, v) (List.mem_cons_self _ _)
            rw [hw] at hw2
            cases hw2
      | some w =>
          simp only [eqvFieldsL]
          rw [hw]
          simp only [Bool.and_eq_true, ih, List.mem_cons]
          constructor
          · rintro ⟨he, hall⟩
            rintro q (rfl | hq)
            · exact ⟨w, hw, he⟩
            · exact hall q hq
          · intro hall
            obtain ⟨w2, hw2, he2⟩ := hall (k, v) (Or.inl rfl)
            rw [hw] at hw2
            cases hw2
            exact ⟨he2, fun q hq => hall q (Or.inr hq)⟩

theorem eqv_refl : ∀ v, wf v = true → eqv v v = true := by
  apply JValue.sind (P := fun v => wf v = true → eqv v v = true)
  intro v ih hwf
  match v with
  | .null => rfl
  | .bool b => simp [eqv]
  | .num n => simp [eqv]
  | .str s => simp [eqv]
  | .arr xs =>
      rw [wf_arr_iff] at hwf
      simp only [eqv]
      exact eqvList_self (fun x hx => ih x (sizeOf_mem_arr hx) (hwf x hx))
  | .obj fs =>
      rw [wf_obj_iff] at hwf
      simp only [eqv, Bool.and_eq_true]
      constructor
      · rw [eqvFieldsL_iff]
        intro p hp
        refine ⟨p.2, ?_, ih p.2 (sizeOf_mem_obj hp) (hwf.2 p hp)⟩
        exact lookupF_of_mem_nodup hwf.1 (by rwa [Prod.mk.eta])
      · rw [List.all_eq_true]
        intro p hp
        exact hasKey_iff.mpr ⟨p.2, by rwa [Prod.mk.eta]⟩

/-! Applying edit sequences -/

@[simp] theorem applyEdits_nil {v : JValue} : applyEdits [] v = v := rfl

theorem applyEdits_cons {e : Edit} {es : List Edit} {v : JValue} :
    applyEdits (e :: es) v = applyEdits es (applyEdit v e) := rfl

theorem applyEdits_append {es fs : List Edit} {v : JValue} :
    applyEdits (es ++ fs) v = applyEdits fs (applyEdits es v) := by
  simp [applyEdits, List.foldl_append]

/-- Edits emitted by the differ never carry an empty-path `New`/`Deleted`
record (those shapes only occur as pathless items inside `ArrayChange`). -/
def goodEdit : Edit → Bool
  | .new [] _ => false
  | .deleted [] _ => false
  | _ => true

theorem goodEdit_pathCons {q : PathElem} {e : Edit} :
    goodEdit (pathCons q e) = true := by
  cases e <;> rfl

theorem newEditsFrom_good (n : Nat) (ws : List JValue) :
    ∀ e ∈ newEditsFrom n ws, goodEdit e = true := by
  induction ws generalizing n with
  | nil => intro e he; simp [newEditsFrom] at he
  | cons w ws ih =>
      intro e he
      simp only [newEditsFrom, List.mem_cons] at he
      rcases he with rfl | he
      · rfl
      · exact ih _ e he

theorem delEditsFrom_good (n : Nat) (ws : List JValue) :
    ∀ e ∈ delEditsFrom n ws, goodEdit e = true := by
  induction ws generalizing n with
  | nil => intro e he; simp [delEditsFrom] at he
  | cons w ws ih =>
      intro e he
      simp only [delEditsFrom, List.mem_cons] at he
      rcases he with rfl | he
      · rfl
      · exact ih _ e he

theorem diffBeyond_good (xs ys : List JValue) :
    ∀ e ∈ diffBeyond xs ys, goodEdit e = true := by
  intro e he
  simp only [diffBeyond] at he
  split at he
  · exact newEditsFrom_good _ _ e (List.mem_reverse.mp he)
  · exact delEditsFrom_good _ _ e (List.mem_reverse.mp he)

theorem diffCommon_good (n : Nat) (xs ys : List JValue) :
    ∀ e ∈ diffCommon n xs ys, goodEdit e = true := by
  induction xs generalizing n ys with
  | nil => intro e he; cases ys <;> simp [diffCommon] at he
  | cons x xs ih =>
      intro e he
      cases ys with
      | nil => simp [diffCommon] at he
      | cons y ys =>
          simp only [diffCommon, List.mem_append, List.mem_map] at he
          rcases he with ⟨e2, he2, rfl⟩ | he
          · exact goodEdit_pathCons
          · exact ih _ _ e he

theorem diffFieldsL_good (fs gs : List (String × JValue)) :
    ∀ e ∈ diffFieldsL fs gs, goodEdit e = true := by
  induction fs with
  | nil => intro e he; simp [diffFieldsL] at he
  | cons p fs ih =>
      obtain ⟨k, v⟩ := p
      intro e he
      simp only [diffFieldsL, List.mem_append] at he
      rcases he with he | he
      · cases hw : lookupF k gs with
        | some w =>
            rw [hw] at he
            simp only [List.mem_map] at he
            obtain ⟨e2, he2, rfl⟩ := he
            exact goodEdit_pathCons
        | none =>
            rw [hw] at he
            simp only [List.mem_singleton] at he
            subst he
            rfl
      · exact ih e he

theorem diffFieldsR_good (fs gs : List (String × JValue)) :
    ∀ e ∈ diffFieldsR fs gs, goodEdit e = true := by
  intro e he
  simp only [diffFieldsR, List.mem_map] at he
  obtain ⟨p, hp, rfl⟩ := he
  rfl

theorem diffV_good : ∀ (a b : JValue), ∀ e ∈ diffV a b, goodEdit e = true := by
  intro a b e he
  rcases a with _ | x | x | x | xs | fs <;> rcases b with _ | y | y | y | ys | gs <;>
    simp only [diffV] at he
  case arr.arr =>
      rcases List.mem_append.mp he with h2 | h2
      · exact diffBeyond_good xs ys e h2
      · exact diffCommon_good 0 xs ys e h2
  case obj.obj =>
      rcases List.mem_append.mp he with h2 | h2
      · exact diffFieldsL_good fs gs e h2
      · exact diffFieldsR_good fs gs e h2
  all_goals try split at he
  all_goals simp at he
  all_goals (subst he; rfl)


/-! Commuting a path-prefixed edit with the surrounding array/object -/

theorem applyEdit_pathCons_idx {n : Nat} {zs : List JValue} {e : Edit}
    (hg : goodEdit e = true) :
    applyEdit (.arr zs) (pathCons (.idx n) e) =
      .arr (modifyIdx n (fun w => applyEdit w e) zs) := by
  cases e with
  | edited p l r => simp [pathCons, applyEdit, applyAt]
  | arrayChange p i it => simp [pathCons, applyEdit, applyAt]
  | new p r =>
      cases p with
      | nil => cases hg
      | cons q0 p2 =>
          cases hl : (q0 :: p2).getLast? with
          | none =>
              rw [List.getLast?_eq_none_iff] at hl
              cases hl
          | some last =>
              cases last with
              | key k =>
                  simp [pathCons, applyEdit, applyAt, List.dropLast_cons₂,
                    List.getLast?_cons_cons, hl]
              | idx i =>
                  simp [pathCons, applyEdit, applyAt, List.dropLast_cons₂,
                    List.getLast?_cons_cons, hl]
  | deleted p l =>
      cases p with
      | nil => cases hg
      | cons q0 p2 =>
          cases hl : (q0 :: p2).getLast? with
          | none =>
              rw [List.getLast?_eq_none_iff] at hl
              cases hl
          | some last =>
              cases last with
              | key k =>
                  simp [pathCons, applyEdit, applyAt, List.dropLast_cons₂,
                    List.getLast?_cons_cons, hl]
              | idx i =>
                  simp [pathCons, applyEdit, applyAt, List.dropLast_cons₂,
                    List.getLast?_cons_cons, hl]

theorem applyEdit_pathCons_key {k : String} {zs : List (String × JValue)} {e : Edit}
    (hg : goodEdit e = true) :
    applyEdit (.obj zs) (pathCons (.key k) e) =
      .obj (modifyField k (fun w => applyEdit w e) zs) := by
  cases e with
  | edited p l r => simp [pathCons, applyEdit, applyAt]
  | arrayChange p i it => simp [pathCons, applyEdit, applyAt]
  | new p r =>
      cases p with
      | nil => cases hg
      | cons q0 p2 =>
          cases hl : (q0 :: p2).getLast? with
          | none =>
              rw [List.getLast?_eq_none_iff] at hl
              cases hl
          | some last =>
              cases last with
              | key k2 =>
                  simp [pathCons, applyEdit, applyAt, List.dropLast_cons₂,
                    List.getLast?_cons_cons, hl]
              | idx i =>
                  simp [pathCons, applyEdit, applyAt, List.dropLast_cons₂,
                    List.getLast?_cons_cons, hl]
  | deleted p l =>
      cases p with
      | nil => cases hg
      | cons q0 p2 =>
          cases hl : (q0 :: p2).getLast? with
          | none =>
              rw [List.getLast?_eq_none_iff] at hl
              cases hl
          | some last =>
              cases last with
              | key k2 =>
                  simp [pathCons, applyEdit, applyAt, List.dropLast_cons₂,
                    List.getLast?_cons_cons, hl]
              | idx i =>
                  simp [pathCons, applyEdit, applyAt, List.dropLast_cons₂,
                    List.getLast?_cons_cons, hl]

theorem applyEdits_map_pathCons_idx {es : List Edit} {n : Nat} {zs : List JValue}
    (hg : ∀ e ∈ es, goodEdit e = true) :
    applyEdits (es.map (pathCons (.idx n))) (.arr zs) =
      .arr (modifyIdx n (applyEdits es) zs) := by
  induction es generalizing zs with
  | nil =>
      simp only [List.map_nil, applyEdits_nil]
      rw [show (applyEdits []) = (fun w : JValue => w) from funext (fun w => rfl),
        modifyIdx_id]
  | cons e es ih =>
      simp only [List.map_cons, applyEdits_cons]
      rw [applyEdit_pathCons_idx (hg e (List.mem_cons_self _ _)),
        ih (fun e2 he2 => hg e2 (List.mem_cons_of_mem _ he2)), modifyIdx_comp]
      rw [show (fun x : JValue => applyEdits es (applyEdit x e)) = applyEdits (e :: es)
        from funext (fun x => rfl)]

theorem modifyField_id {k : String} {zs : List (String × JValue)} :
    modifyField k (fun w => w) zs = zs := by
  induction zs with
  | nil => rfl
  | cons p zs ih =>
      obtain ⟨k2, v2⟩ := p
      simp only [modifyField, List.map_cons] at ih ⊢
      rw [ih]
      by_cases hp : k2 = k <;> simp [hp]

theorem modifyField_comp {k : String} {f g : JValue → JValue}
    {zs : List (String × JValue)} :
    modifyField k g (modifyField k f zs) = modifyField k (fun x => g (f x)) zs := by
  induction zs with
  | nil => rfl
  | cons p zs ih =>
      obtain ⟨k2, v2⟩ := p
      simp only [modifyField, List.map_cons] at ih ⊢
      rw [ih]
      by_cases hp : k2 = k <;> simp [hp]

theorem applyEdits_map_pathCons_key {es : List Edit} {k : String}
    {zs : List (String × JValue)}
    (hg : ∀ e ∈ es, goodEdit e = true) :
    applyEdits (es.map (pathCons (.key k))) (.obj zs) =
      .obj (modifyField k (applyEdits es) zs) := by
  induction es generalizing zs with
  | nil =>
      simp only [List.map_nil, applyEdits_nil]
      rw [show (applyEdits []) = (fun w : JValue => w) from funext (fun w => rfl),
        modifyField_id]
  | cons e es ih =>
      simp only [List.map_cons, applyEdits_cons]
      rw [applyEdit_pathCons_key (hg e (List.mem_cons_self _ _)),
        ih (fun e2 he2 => hg e2 (List.mem_cons_of_mem _ he2)), modifyField_comp]
      rw [show (fun x : JValue => applyEdits es (applyEdit x e)) = applyEdits (e :: es)
        from funext (fun x => rfl)]


/-! Applying the array-length edits -/

theorem applyEdits_newEditsFrom {ws : List JValue} (hne : ws ≠ []) :
    ∀ (n : Nat) (zs : List JValue), zs.length ≤ n →
    applyEdits (newEditsFrom n ws).reverse (.arr zs) =
      .arr (zs ++ List.replicate (n - zs.length) JValue.null ++ ws) := by
  induction ws with
  | nil => cases hne rfl
  | cons w ws ih =>
      intro n zs hlen
      rw [newEditsFrom, List.reverse_cons, applyEdits_append]
      cases ws with
      | nil =>
          simp only [newEditsFrom, List.reverse_nil, applyEdits_nil]
          simp only [applyEdits, List.foldl_cons, List.foldl_nil]
          simp only [applyEdit, applyAt, applyArrayItem]
          rw [setExtend, if_neg (by omega)]
      | cons w2 ws2 =>
          rw [ih (by simp) (n+1) zs (by omega)]
          simp only [applyEdits, List.foldl_cons, List.foldl_nil]
          simp only [applyEdit, applyAt, applyArrayItem]
          have hrep : List.replicate (n + 1 - zs.length) JValue.null
              = List.replicate (n - zs.length) JValue.null ++ [JValue.null] := by
            rw [show n + 1 - zs.length = (n - zs.length) + 1 from by omega,
              List.replicate_succ']
          rw [hrep]
          have hlen2 : (zs ++ List.replicate (n - zs.length) JValue.null).length = n := by
            simp only [List.length_append, List.length_replicate]
            omega
          rw [setExtend, if_pos (by
            simp only [List.length_append, List.length_replicate, List.length_cons]
            omega)]
          rw [show zs ++ (List.replicate (n - zs.length) JValue.null ++ [JValue.null])
                ++ (w2 :: ws2)
              = (zs ++ List.replicate (n - zs.length) JValue.null)
                ++ (JValue.null :: (w2 :: ws2)) from by simp]
          have hset := set_append_len (A := zs ++ List.replicate (n - zs.length) JValue.null)
            (B := w2 :: ws2) (x := JValue.null) (w := w)
          rw [hlen2] at hset
          rw [hset]

theorem applyEdits_delEditsFrom :
    ∀ (t zs : List JValue),
    applyEdits (delEditsFrom zs.length t).reverse (.arr (zs ++ t)) = .arr zs := by
  intro t
  induction t with
  | nil => intro zs; simp [delEditsFrom, applyEdits]
  | cons w t ih =>
      intro zs
      rw [delEditsFrom, List.reverse_cons, applyEdits_append]
      rw [show zs ++ w :: t = (zs ++ [w]) ++ t from by simp]
      have h2 := ih (zs ++ [w])
      rw [show (zs ++ [w]).length = zs.length + 1 from by simp] at h2
      rw [h2]
      simp only [applyEdits, List.foldl_cons, List.foldl_nil]
      simp only [applyEdit, applyAt, applyArrayItem]
      rw [show zs ++ [w] = zs ++ w :: ([] : List JValue) from rfl, eraseIdx_append_len]
      simp

theorem map_fst_zip_take :
    ∀ (xs ys : List JValue), (xs.zip ys).map Prod.fst = xs.take ys.length := by
  intro xs
  induction xs with
  | nil => intro ys; simp
  | cons x xs ih =>
      intro ys
      cases ys with
      | nil => simp
      | cons y ys => simp [ih]

theorem map_snd_zip_take :
    ∀ (xs ys : List JValue), (xs.zip ys).map Prod.snd = ys.take xs.length := by
  intro xs
  induction xs with
  | nil => intro ys; simp
  | cons x xs ih =>
      intro ys
      cases ys with
      | nil => simp
      | cons y ys => simp [ih]

theorem applyEdits_diffBeyond (xs ys : List JValue) :
    applyEdits (diffBeyond xs ys) (.arr xs) =
      .arr ((xs.zip ys).map Prod.fst ++ ys.drop xs.length) := by
  by_cases h : xs.length < ys.length
  · rw [diffBeyond, if_pos h]
    have hne : ys.drop xs.length ≠ [] := by
      intro hd
      rw [List.drop_eq_nil_iff] at hd
      omega
    rw [applyEdits_newEditsFrom hne xs.length xs (le_refl _)]
    rw [map_fst_zip_take, List.take_of_length_le (by omega)]
    simp
  · rw [diffBeyond, if_neg h]
    have hlen : (xs.take ys.length).length = ys.length := by
      simp only [List.length_take]
      omega
    conv_lhs => rw [show (JValue.arr xs)
      = JValue.arr (xs.take ys.length ++ xs.drop ys.length) from by
        rw [List.take_append_drop]]
    have h2 := applyEdits_delEditsFrom (xs.drop ys.length) (xs.take ys.length)
    rw [hlen] at h2
    rw [h2, map_fst_zip_take, List.drop_eq_nil_of_le (by omega)]
    simp

/-! Applying the common-prefix edits -/

theorem applyEdits_diffCommon :
    ∀ (xs ys pre post : List JValue),
    applyEdits (diffCommon pre.length xs ys)
        (.arr (pre ++ (xs.zip ys).map Prod.fst ++ post)) =
      .arr (pre ++ (xs.zip ys).map (fun p => applyEdits (diffV p.1 p.2) p.1) ++ post) := by
  intro xs
  induction xs with
  | nil => intro ys pre post; cases ys <;> simp [diffCommon]
  | cons x xs ih =>
      intro ys pre post
      cases ys with
      | nil => simp [diffCommon]
      | cons y ys =>
          simp only [List.zip_cons_cons, List.map_cons]
          simp only [diffCommon]
          rw [applyEdits_append]
          rw [show pre ++ (x :: ((xs.zip ys).map Prod.fst)) ++ post
              = pre ++ x :: ((xs.zip ys).map Prod.fst ++ post) from by simp]
          rw [applyEdits_map_pathCons_idx (diffV_good x y)]
          rw [modifyIdx_append_cons]
          have h3 := ih ys (pre ++ [applyEdits (diffV x y) x]) post
          rw [show (pre ++ [applyEdits (diffV x y) x]).length = pre.length + 1
            from by simp] at h3
          rw [show pre ++ applyEdits (diffV x y) x :: ((xs.zip ys).map Prod.fst ++ post)
              = (pre ++ [applyEdits (diffV x y) x]) ++ (xs.zip ys).map Prod.fst ++ post
            from by simp]
          rw [h3]
          simp


/-! Object-side application lemmas -/

theorem keysNodup_mid {pre fs : List (String × JValue)} {k : String} {v : JValue}
    (hnd : keysNodup (pre ++ (k, v) :: fs) = true) :
    hasKey pre k = false ∧ hasKey fs k = false ∧ keysNodup (pre ++ fs) = true := by
  obtain ⟨hnp, hnc, hdisj⟩ := keysNodup_append.mp hnd
  obtain ⟨hfs, hnfs⟩ := keysNodup_cons.mp hnc
  have hpre : hasKey pre k = false := by
    cases hh : hasKey pre k with
    | false => rfl
    | true =>
        have h2 := hdisj k hh
        rw [hasKey_cons] at h2
        simp at h2
  refine ⟨hpre, hfs, keysNodup_append.mpr ⟨hnp, hnfs, ?_⟩⟩
  intro k2 h2
  have h3 := hdisj k2 h2
  rw [hasKey_cons, Bool.or_eq_false_iff] at h3
  exact h3.2

theorem keysNodup_insert_mid {pre fs : List (String × JValue)} {k : String}
    {v x : JValue} (hnd : keysNodup (pre ++ (k, v) :: fs) = true) :
    keysNodup ((pre ++ [(k, x)]) ++ fs) = true := by
  obtain ⟨hnp, hnc, hdisj⟩ := keysNodup_append.mp hnd
  obtain ⟨hfs, hnfs⟩ := keysNodup_cons.mp hnc
  obtain ⟨hpre, -, -⟩ := keysNodup_mid hnd
  refine keysNodup_append.mpr ⟨?_, hnfs, ?_⟩
  · refine keysNodup_append.mpr ⟨hnp, by simp [keysNodup, hasKey], ?_⟩
    intro k2 h2
    have hk2 : k ≠ k2 := by
      intro he
      subst he
      rw [h2] at hpre
      cases hpre
    simp [hasKey, hk2]
  · intro k2 h2
    rw [hasKey_append, Bool.or_eq_true] at h2
    rcases h2 with h2 | h2
    · have h3 := hdisj k2 h2
      rw [hasKey_cons, Bool.or_eq_false_iff] at h3
      exact h3.2
    · have hk2 : k = k2 := by simpa [hasKey] using h2
      subst hk2
      exact hfs

theorem applyEdits_diffFieldsL :
    ∀ (fs gs pre : List (String × JValue)),
    keysNodup (pre ++ fs) = true →
    applyEdits (diffFieldsL fs gs) (.obj (pre ++ fs)) =
      .obj (pre ++ fs.filterMap (fun p => (lookupF p.1 gs).map
        (fun w => (p.1, applyEdits (diffV p.2 w) p.2)))) := by
  intro fs
  induction fs with
  | nil => intro gs pre hnd; simp [diffFieldsL]
  | cons p fs ih =>
      obtain ⟨k, v⟩ := p
      intro gs pre hnd
      obtain ⟨hpre, hfs, hnd2⟩ := keysNodup_mid hnd
      simp only [diffFieldsL]
      rw [applyEdits_append]
      cases hw : lookupF k gs with
      | some w =>
          rw [applyEdits_map_pathCons_key (diffV_good v w)]
          rw [modifyField_append_cons hpre hfs]
          have ihh := ih gs (pre ++ [(k, applyEdits (diffV v w) v)])
            (keysNodup_insert_mid hnd)
          rw [show pre ++ (k, applyEdits (diffV v w) v) :: fs
              = (pre ++ [(k, applyEdits (diffV v w) v)]) ++ fs from by simp]
          rw [ihh]
          simp only [List.filterMap_cons, hw, Option.map_some']
          simp
      | none =>
          simp only [applyEdits, List.foldl_cons, List.foldl_nil]
          simp only [applyEdit, List.dropLast_single, List.getLast?_singleton]
          simp only [applyAt]
          rw [removeField_append_cons hpre hfs]
          have ihh := ih gs pre hnd2
          simp only [applyEdits] at ihh
          rw [ihh]
          simp only [List.filterMap_cons, hw, Option.map_none']

theorem applyEdits_insertFields :
    ∀ (ns zs : List (String × JValue)),
    (∀ p ∈ ns, hasKey zs p.1 = false) → keysNodup ns = true →
    applyEdits (ns.map (fun p => Edit.new [PathElem.key p.1] p.2)) (.obj zs) =
      .obj (zs ++ ns) := by
  intro ns
  induction ns with
  | nil => intro zs h1 h2; simp
  | cons p ns ih =>
      obtain ⟨k, w⟩ := p
      intro zs hdisj hnd
      simp only [List.map_cons, applyEdits_cons]
      have hstep : applyEdit (.obj zs) (.new [PathElem.key k] w)
          = .obj (setField zs k w) := by
        simp [applyEdit, applyAt]
      rw [hstep, setField_of_not_has (hdisj (k, w) (List.mem_cons_self _ _))]
      obtain ⟨hks, hnd2⟩ := keysNodup_cons.mp hnd
      have hdisj2 : ∀ p2 ∈ ns, hasKey (zs ++ [(k, w)]) p2.1 = false := by
        intro p2 hp2
        rw [hasKey_append, Bool.or_eq_false_iff]
        refine ⟨hdisj p2 (List.mem_cons_of_mem _ hp2), ?_⟩
        have hne : k ≠ p2.1 := by
          intro he
          have : hasKey ns k = true := hasKey_iff.mpr ⟨p2.2, by
            rw [he]; rwa [Prod.mk.eta]⟩
          rw [this] at hks
          cases hks
        simp [hasKey, hne]
      rw [ih (zs ++ [(k, w)]) hdisj2 hnd2]
      simp


/-! The diff/patch round trip -/

theorem eqvList_map_zip {xs ys : List JValue}
    (h : ∀ x y, (x, y) ∈ xs.zip ys → eqv (applyEdits (diffV x y) x) y = true) :
    eqvList ((xs.zip ys).map (fun p => applyEdits (diffV p.1 p.2) p.1))
      ((xs.zip ys).map Prod.snd) = true := by
  induction xs generalizing ys with
  | nil => cases ys <;> rfl
  | cons x xs ih =>
      cases ys with
      | nil => rfl
      | cons y ys =>
          simp only [List.zip_cons_cons, List.map_cons, eqvList, Bool.and_eq_true]
          refine ⟨h x y (List.mem_cons_self _ _), ?_⟩
          exact ih (fun x2 y2 h2 => h x2 y2 (List.mem_cons_of_mem _ h2))

theorem hasKey_filterMap_step {fs gs : List (String × JValue)} {k : String}
    (h : hasKey (fs.filterMap (fun p => (lookupF p.1 gs).map
      (fun w => (p.1, applyEdits (diffV p.2 w) p.2)))) k = true) :
    hasKey fs k = true := by
  obtain ⟨v, hv⟩ := hasKey_iff.mp h
  rw [List.mem_filterMap] at hv
  obtain ⟨q, hq, hstep⟩ := hv
  rw [Option.map_eq_some'] at hstep
  obtain ⟨w, hw, heq⟩ := hstep
  have hk : q.1 = k := congrArg Prod.fst heq
  exact hasKey_iff.mpr ⟨q.2, by rw [← hk]; rwa [Prod.mk.eta]⟩

theorem hasKey_of_hasKey_filter {q : String × JValue → Bool}
    {l : List (String × JValue)} {k : String}
    (h : hasKey (l.filter q) k = true) : hasKey l k = true := by
  obtain ⟨v, hv⟩ := hasKey_iff.mp h
  exact hasKey_iff.mpr ⟨v, List.mem_of_mem_filter hv⟩

theorem keysNodup_filter {q : String × JValue → Bool}
    {l : List (String × JValue)} (h : keysNodup l = true) :
    keysNodup (l.filter q) = true := by
  induction l with
  | nil => rfl
  | cons p l ih =>
      obtain ⟨hk, hnd⟩ := keysNodup_cons.mp h
      rw [List.filter_cons]
      split
      · rw [keysNodup_cons]
        refine ⟨?_, ih hnd⟩
        cases hh : hasKey (l.filter q) p.1 with
        | false => rfl
        | true => rw [hasKey_of_hasKey_filter hh] at hk; cases hk
      · exact ih hnd

theorem roundTrip : ∀ a, wf a = true → ∀ b, wf b = true →
    eqv (applyEdits (diffV a b) a) b = true := by
  apply JValue.sind (P := fun a => wf a = true → ∀ b, wf b = true →
    eqv (applyEdits (diffV a b) a) b = true)
  intro a ih hwa b hwb
  rcases a with _ | x | x | x | xs | fs <;> rcases b with _ | y | y | y | ys | gs
  case null.null => rfl
  case bool.bool =>
      by_cases hxy : x = y <;>
        simp [diffV, hxy, applyEdits, applyEdit, applyAt, eqv]
  case num.num =>
      by_cases hxy : x = y <;>
        simp [diffV, hxy, applyEdits, applyEdit, applyAt, eqv]
  case str.str =>
      by_cases hxy : x = y <;>
        simp [diffV, hxy, applyEdits, applyEdit, applyAt, eqv]
  case arr.arr =>
      simp only [diffV]
      rw [applyEdits_append, applyEdits_diffBeyond]
      have hc := applyEdits_diffCommon xs ys [] (ys.drop xs.length)
      simp only [List.nil_append, List.length_nil] at hc
      rw [hc]
      simp only [eqv]
      have hys : ys = (xs.zip ys).map Prod.snd ++ ys.drop xs.length := by
        rw [map_snd_zip_take, List.take_append_drop]
      conv_lhs => arg 2; rw [hys]
      apply eqvList_append
      · apply eqvList_map_zip
        intro x y hxy
        obtain ⟨hx, hy⟩ := List.of_mem_zip hxy
        exact ih x (sizeOf_mem_arr hx) (wf_arr_iff.mp hwa x hx) y
          (wf_arr_iff.mp hwb y hy)
      · apply eqvList_self
        intro x hx
        exact eqv_refl x (wf_arr_iff.mp hwb x (List.mem_of_mem_drop hx))
  case obj.obj =>
      rw [wf_obj_iff] at hwa hwb
      simp only [diffV]
      rw [applyEdits_append]
      have h1 := applyEdits_diffFieldsL fs gs [] (by simpa using hwa.1)
      simp only [List.nil_append] at h1
      rw [h1]
      rw [show diffFieldsR fs gs = (gs.filter (fun p => !(hasKey fs p.1))).map
        (fun p => Edit.new [PathElem.key p.1] p.2) from rfl]
      rw [applyEdits_insertFields _ _ ?disj ?nd]
      case disj =>
          intro p hp
          obtain ⟨-, hfil⟩ := List.mem_filter.mp hp
          cases hh : hasKey (fs.filterMap (fun q => (lookupF q.1 gs).map
            (fun w => (q.1, applyEdits (diffV q.2 w) q.2)))) p.1 with
          | false => rfl
          | true =>
              have h2 := hasKey_filterMap_step hh
              rw [h2] at hfil
              cases hfil
      case nd => exact keysNodup_filter hwb.1
      simp only [eqv, Bool.and_eq_true]
      constructor
      · rw [eqvFieldsL_iff]
        intro p hp
        rcases List.mem_append.mp hp with hpM | hpns
        · rw [List.mem_filterMap] at hpM
          obtain ⟨q, hq, hstep⟩ := hpM
          rw [Option.map_eq_some'] at hstep
          obtain ⟨w, hw, heq⟩ := hstep
          subst heq
          refine ⟨w, hw, ?_⟩
          exact ih q.2 (sizeOf_mem_obj hq) (hwa.2 q hq) w
            (hwb.2 (q.1, w) (lookupF_mem hw))
        · have hpgs : p ∈ gs := List.mem_of_mem_filter hpns
          refine ⟨p.2, lookupF_of_mem_nodup hwb.1 (by rwa [Prod.mk.eta]), ?_⟩
          exact eqv_refl _ (hwb.2 p hpgs)
      · rw [List.all_eq_true]
        intro p hp
        rw [hasKey_append, Bool.or_eq_true]
        by_cases hkf : hasKey fs p.1 = true
        · left
          obtain ⟨v, hv⟩ := hasKey_iff.mp hkf
          obtain ⟨w, hw⟩ := lookupF_isSome_of_hasKey
            (hasKey_iff.mpr ⟨p.2, by rwa [Prod.mk.eta]⟩)
          rw [hasKey_iff]
          refine ⟨applyEdits (diffV v w) v, ?_⟩
          rw [List.mem_filterMap]
          exact ⟨(p.1, v), hv, by rw [hw]; rfl⟩
        · right
          rw [hasKey_iff]
          refine ⟨p.2, List.mem_filter.mpr ⟨by rwa [Prod.mk.eta], ?_⟩⟩
          simp [Bool.not_eq_true] at hkf ⊢
          exact hkf
  all_goals
    simp only [diffV, applyEdits, List.foldl_cons, List.foldl_nil, applyEdit, applyAt]
  all_goals exact eqv_refl _ hwb


/-! Well-formedness of the shallow merge -/

theorem hasKey_map_snd {fs : List (String × JValue)} {g : String × JValue → JValue}
    {k : String} :
    hasKey (fs.map (fun p => (p.1, g p))) k = hasKey fs k := by
  induction fs with
  | nil => rfl
  | cons p fs ih => simp [hasKey, List.any_cons] at ih ⊢; rw [ih]

theorem keysNodup_map_snd {fs : List (String × JValue)} {g : String × JValue → JValue} :
    keysNodup (fs.map (fun p => (p.1, g p))) = keysNodup fs := by
  induction fs with
  | nil => rfl
  | cons p fs ih =>
      obtain ⟨k, v⟩ := p
      simp only [List.map_cons, keysNodup, hasKey_map_snd, ih]

theorem wf_mergeFields {fs us : List (String × JValue)}
    (ha : wf (.obj fs) = true) (hb : wf (.obj us) = true) :
    wf (.obj (mergeFields fs us)) = true := by
  rw [wf_obj_iff] at ha hb ⊢
  constructor
  · apply keysNodup_append.mpr
    refine ⟨?_, keysNodup_filter hb.1, ?_⟩
    · rw [keysNodup_map_snd]
      exact ha.1
    · intro k hk
      rw [hasKey_map_snd] at hk
      cases hh : hasKey (us.filter (fun p => !(hasKey fs p.1))) k with
      | false => rfl
      | true =>
          obtain ⟨v, hv⟩ := hasKey_iff.mp hh
          obtain ⟨-, hfil⟩ := List.mem_filter.mp hv
          simp only [Bool.not_eq_true'] at hfil
          rw [hfil] at hk
          cases hk
  · intro p hp
    rcases List.mem_append.mp hp with hp | hp
    · rw [List.mem_map] at hp
      obtain ⟨q, hq, rfl⟩ := hp
      cases hw : lookupF q.1 us with
      | none => simpa [hw] using ha.2 q hq
      | some w => simpa [hw] using hb.2 (q.1, w) (lookupF_mem hw)
    · exact hb.2 p (List.mem_of_mem_filter hp)

/-- Claim C2: for all JSON-like objects `before` and `afterPart`, applying
the `changes` sequence of `createChangelog rc before afterPart` to
`before` — `New` as insert, `Deleted` as remove, `Edited` as replace,
`ArrayChange` as insert/remove at the given index (`applyEdit`) —
reproduces the shallow merge of `afterPart`'s top-level fields over a deep
copy of `before`, up to JSON object equality (`eqv`: JavaScript deep
equality, for which object key order is irrelevant). -/
theorem createChangelog_applyEdits_roundTrip (rc : IRequestContext) (now : Nat)
    (before afterPart : List (String × JValue))
    (hb : wf (.obj before) = true) (ha : wf (.obj afterPart) = true) :
    eqv (applyEdits (createChangelog rc now before afterPart).changes (.obj before))
      (.obj (mergeFields before afterPart)) = true :=
  roundTrip _ hb _ (wf_mergeFields hb ha)

/-- The running example of the specification (spec 8, example scenario):
the stored document before the update. -/
def exampleOriginal : List (String × JValue) :=
  [("someField", .str "hey"), ("how", .str "do"), ("you", .str "do"),
   ("nested", .arr [.obj [("oh", .str "no")]])]

/-- The example update (the spec's after-state restricted to the supplied
top-level fields; `you` is untouched). -/
def exampleUpdates : List (String × JValue) :=
  [("someField", .str "hello"), ("how", .str "do"),
   ("nested", .arr [.obj [("oh", .str "maybe"), ("hi", .str "howAreYou")],
                    .obj [("oh", .str "yeah")]])]

/-- Witness for C2: the round-trip law evaluated on the specification's
example documents. -/
theorem createChangelog_applyEdits_roundTrip_witness :
    wf (.obj exampleOriginal) = true ∧ wf (.obj exampleUpdates) = true ∧
    eqv (applyEdits (createChangelog ⟨"tok", "ip", "ep"⟩ 0 exampleOriginal
        exampleUpdates).changes (.obj exampleOriginal))
      (.obj (mergeFields exampleOriginal exampleUpdates)) = true :=
  ⟨rfl, rfl, createChangelog_applyEdits_roundTrip ⟨"tok", "ip", "ep"⟩ 0
    exampleOriginal exampleUpdates rfl rfl⟩

/-- Is the edit a `Deleted` record? -/
def isDeletedEdit : Edit → Bool
  | .deleted _ _ => true
  | _ => false

/-- Claim C3: on the specification's example documents the changelog holds
exactly the four expected edits — `Edited` on `someField`, the
`ArrayChange`/`New` for the appended `nested` element, the nested `Edited`
on `nested.0.oh` and the `New` on `nested.0.hi` — in exactly this order,
and in particular no `Deleted` edit for the untouched top-level key
`you`. -/
theorem createChangelog_example (rc : IRequestContext) (now : Nat) :
    (createChangelog rc now exampleOriginal exampleUpdates).changes =
      [ .edited [.key "someField"] (.str "hey") (.str "hello"),
        .arrayChange [.key "nested"] 1 (.new [] (.obj [("oh", .str "yeah")])),
        .edited [.key "nested", .idx 0, .key "oh"] (.str "no") (.str "maybe"),
        .new [.key "nested", .idx 0, .key "hi"] (.str "howAreYou") ] ∧
    ((createChangelog rc now exampleOriginal exampleUpdates).changes.all
      (fun e => !(isDeletedEdit e))) = true :=
  ⟨rfl, rfl⟩


/-! ### The storage facade (`src/lib/storage.ts`) -/

/-- `serialize` (storage.ts lines 24-31): `JSON.parse(JSON.stringify(doc))`
with ObjectId revival for `*Id`/`_id` keys; on the JSON-like values of the
model this round-trip is the identity. -/
def serialize (document : List (String × JValue)) : List (String × JValue) :=
  document

/-- `validate` (storage.ts lines 126-144).  The Joi collaborator is the
abstract `joiValidate` argument returning `(error?, value)` — the value
has unknown fields stripped, per the `stripUnknown` option.  On error the
code throws ``Error validating '<collectionName>' document: <message>``. -/
def validate (collectionName : String)
    (joiValidate : List (String × JValue) → Option String × List (String × JValue))
    (document : List (String × JValue)) : Except String (List (String × JValue)) :=
  match (joiValidate document).1 with
  | some msg => .error ("Error validating \x27" ++ collectionName
      ++ "\x27 document: " ++ msg)
  | none => .ok (joiValidate document).2

/-- A persisted document: its JSON body plus the store-managed
`changelogs` array (held apart from the body so changelog entries keep
their structured `Edit` lists). -/
structure StoredDoc where
  body : List (String × JValue)
  changelogs : List IChangelog

/-- `insertOne` (storage.ts lines 163-175): validates the raw input
(discarding the validated value), persists `serialize(document)` together
with a fresh one-entry changelog built from `(before={}, afterPartial={})`,
and returns the stored document without `_id`
(`_.omit(result.ops[0], '_id')`).  The driver-assigned id is the `newId`
argument; the collection state is passed and returned explicitly. -/
def insertOne (collectionName : String)
    (joiValidate : List (String × JValue) → Option String × List (String × JValue))
    (rc : IRequestContext) (now : Nat) (newId : JValue)
    (document : List (String × JValue)) (store : List StoredDoc) :
    List StoredDoc × Except String StoredDoc :=
  match validate collectionName joiValidate document with
  | .error e => (store, .error e)
  | .ok _ =>
      let persisted : StoredDoc :=
        { body := setField (serialize document) "_id" newId
          changelogs := [createChangelog rc now [] []] }
      (store ++ [persisted],
        .ok { body := removeField "_id" persisted.body
              changelogs := persisted.changelogs })

/-- The pair built by `findOneAndUpdate` (storage.ts lines 230-278):
`capturedOriginal` is the fetched document captured by the `commit`
closure, `originalDocument` the `_.cloneDeep` copy handed to the caller —
the two share no structure. -/
structure UpdateHandle where
  capturedOriginal : List (String × JValue)
  originalDocument : List (String × JValue)

/-- `_.cloneDeep`: a structural deep copy; on immutable model values the
copy is the same value, and the absence of sharing is what lets the model
mutate the caller copy independently (`mutateCallerCopy`). -/
def cloneDeep (document : List (String × JValue)) : List (String × JValue) :=
  document

/-- The read phase of `findOneAndUpdate`: fetch the current document (the
store is returned unchanged — nothing is written before `commit`) and
return the deep copy for the caller. -/
def findOneAndUpdatePrepare (store : List StoredDoc)
    (fetched : List (String × JValue)) : List StoredDoc × UpdateHandle :=
  (store, { capturedOriginal := fetched, originalDocument := cloneDeep fetched })

/-- A caller-side mutation of the returned copy between fetch and commit:
because the copy is deep, only `originalDocument` changes, never the
captured original. -/
def mutateCallerCopy (h : UpdateHandle)
    (mutate : List (String × JValue) → List (String × JValue)) : UpdateHandle :=
  { capturedOriginal := h.capturedOriginal
    originalDocument := mutate h.originalDocument }

/-- The changelog built inside `commit` (storage.ts lines 238-250):
`delete originalDocument['changelogs']`, `delete
documentUpdate['changelogs']`, serialize both, and hand the pair to
`createChangelog`; the before-state is the closure-captured original, not
the caller's copy. -/
def commitChangelog (rc : IRequestContext) (now : Nat) (h : UpdateHandle)
    (documentUpdate : List (String × JValue)) : IChangelog :=
  createChangelog rc now (serialize (removeField "changelogs" h.capturedOriginal))
    (serialize (removeField "changelogs" documentUpdate))

/-- JavaScript truthiness of a JSON value. -/
def truthy : JValue → Bool
  | .null => false
  | .bool b => b
  | .num n => n != 0
  | .str s => !(s.isEmpty)
  | .arr _ => true
  | .obj _ => true

/-- Outcome of the subdocument search in `findOneSubdocumentAndUpdate`:
success with the live references, the store's NotFoundError, or an
uncaught `TypeError` from calling `.find` on a value that has no such
method. -/
inductive FindSubdocResult where
  | ok (documentReference : List (String × JValue)) (subdocumentReference : JValue)
  | notFoundError (msg : String)
  | typeError

/-- `findOneSubdocumentAndUpdate` (storage.ts lines 329-356) after the
parent fetch: evaluates `originalDocument[subdocumentPath].find(pred)`.
When the field is absent, `.find` is invoked on `undefined` and a
`TypeError` is raised — the storage.ts variant has no `?.`, unlike
`src/unnamed/part_005` lines 327-329; likewise a non-array field value has
no `.find`.  A missing (or falsy) search result raises the store's
NotFoundError naming the document type. -/
def findOneSubdocumentAndUpdate (documentName : String)
    (originalDocument : List (String × JValue)) (subdocumentPath : String)
    (subdocumentPredicate : JValue → Bool) : FindSubdocResult :=
  match lookupF subdocumentPath originalDocument with
  | none => .typeError
  | some (.arr elems) =>
      match elems.find? subdocumentPredicate with
      | some subdocumentReference =>
          if truthy subdocumentReference then
            .ok originalDocument subdocumentReference
          else .notFoundError ("Resource doesn\x27t exist on " ++ documentName)
      | none => .notFoundError ("Resource doesn\x27t exist on " ++ documentName)
  | some _ => .typeError

/-- Setting key `mutatedKey` of one subdocument (an object array element)
through the live reference. -/
def mutateElement (mutatedKey : String) (newValue : JValue) : JValue → JValue
  | .obj sub => .obj (modifyField mutatedKey (fun _ => newValue) sub)
  | e => e

/-- The same mutation seen from the owning array: element `i` changes. -/
def mutateArray (i : Nat) (mutatedKey : String) (newValue : JValue) :
    JValue → JValue
  | .arr elems => .arr (modifyIdx i (mutateElement mutatedKey newValue) elems)
  | v => v

/-- The caller mutation of the C1 workflow: setting key `mutatedKey` of
the found array element (index `i`) through the live subdocument
reference; since the reference aliases
`documentReference[subdocumentPath][i]`, this is exactly an update of the
parent document at that path. -/
def mutateSubdocument (document : List (String × JValue)) (subdocumentPath : String)
    (i : Nat) (mutatedKey : String) (newValue : JValue) : List (String × JValue) :=
  modifyField subdocumentPath (mutateArray i mutatedKey newValue) document

/-! The `findMany` filter translation (storage.ts lines 190-228) -/

/-- A value of the semantic query object: a `Date` (carried as the ISO
string `v.toISOString()` produces), an array, or any other value. -/
inductive FilterValue where
  | date (iso : String)
  | array (vs : List JValue)
  | plain (v : JValue)

/-- A condition of the translated native filter. -/
inductive MongoCond where
  | gt (iso : String)
  | lt (iso : String)
  | inSet (vs : List JValue)
  | eqTo (v : FilterValue)

/-- `dateToFilter` (storage.ts lines 196-205): the three recognized
semantic operators; any other key falls off the `switch` without a
default and the function returns `undefined` (`none`). -/
def dateToFilter (k : String) (iso : String) : Option (String × MongoCond) :=
  match k with
  | "purchasedAfter" => some ("purchaseDate", .gt iso)
  | "updatedAfter" => some ("lastChanged", .gt iso)
  | "shouldShipBy" => some ("latestShipDate", .lt iso)
  | _ => none

/-- One entry of the `.map` in storage.ts lines 210-216: date values go
through `dateToFilter`, arrays become `$in` membership tests, anything
else passes through as an equality. -/
def translateEntry : String × FilterValue → Option (String × MongoCond)
  | (k, .date iso) => dateToFilter k iso
  | (k, .array vs) => some (k, .inSet vs)
  | (k, .plain v) => some (k, .eqTo (.plain v))

/-- Truthiness of a filter value (`.filter(([k, v]) => !!v)`): `Date` and
array objects are always truthy. -/
def truthyFilterValue : FilterValue → Bool
  | .date _ => true
  | .array _ => true
  | .plain v => truthy v

/-- Builds the native filter: drop falsy values, translate each entry,
and assemble with `_.fromPairs`.  A `dateToFilter` miss hands `undefined`
to `_.fromPairs`, which then throws `TypeError` reading `pair[0]` —
modelled as `none` for the whole construction. -/
def mongoFilterEntries :
    List (String × FilterValue) → Option (List (String × MongoCond))
  | [] => some []
  | (k, v) :: rest =>
      match translateEntry (k, v), mongoFilterEntries rest with
      | some e, some es => some (e :: es)
      | _, _ => none

/-- The `mongoFilter` value of `findMany` (storage.ts lines 207-217). -/
def mongoFilter (filter : List (String × FilterValue)) :
    Option (List (String × MongoCond)) :=
  mongoFilterEntries (filter.filter (fun p => truthyFilterValue p.2))

/-! `ensureIndexes` (storage.ts lines 76-117) -/

/-- An index specification: its key pattern (the ordered field/direction
object whose `JSON.stringify` is the comparison identity) and its name. -/
structure IndexSpecification where
  key : List (String × Int)
  name : String

/-- The default primary-key index pattern `{_id: 1}`. -/
def idKey : List (String × Int) := [("_id", 1)]

/-- `ensureIndexes` as the pair `(newIndexes, removedIndexes)`:
`_.differenceBy(indexes, existingIndexes, identity)` and
`_.differenceBy(existingIndexes, indexes, identity)` filtered to spare the
default `_id` index, comparing by the key-pattern identity
`JSON.stringify(i.key)` — never by name.  (`background: true` is attached
on creation and dropping happens by name; neither changes which
specifications are selected.) -/
def ensureIndexes (indexes existingIndexes : List IndexSpecification) :
    List IndexSpecification × List IndexSpecification :=
  (indexes.filter (fun i => !(existingIndexes.any (fun e => decide (e.key = i.key)))),
   (existingIndexes.filter
      (fun e => !(indexes.any (fun i => decide (i.key = e.key))))).filter
     (fun e => !(decide (e.key = idKey))))


/-! Further lookup lemmas -/

theorem hasKey_removeField_self {k : String} {fs : List (String × JValue)} :
    hasKey (removeField k fs) k = false := by
  cases hh : hasKey (removeField k fs) k with
  | false => rfl
  | true =>
      obtain ⟨v, hv⟩ := hasKey_iff.mp hh
      obtain ⟨-, hne⟩ := List.mem_filter.mp hv
      simp at hne

theorem lookupF_removeField_ne {k k2 : String} {fs : List (String × JValue)}
    (h : k ≠ k2) : lookupF k (removeField k2 fs) = lookupF k fs := by
  induction fs with
  | nil => rfl
  | cons p fs ih =>
      obtain ⟨k3, v⟩ := p
      by_cases h3 : k3 = k
      · subst h3
        have hbne : (k3 != k2) = true := by simpa using h
        simp [removeField, List.filter_cons, hbne, lookupF]
      · rw [show removeField k2 ((k3, v) :: fs)
            = if (k3 != k2) = true then (k3, v) :: removeField k2 fs
              else removeField k2 fs from by
          simp [removeField, List.filter_cons]]
        split
        · simp only [lookupF, if_neg h3]
          exact ih
        · rw [ih]
          simp [lookupF, h3]

theorem lookupF_modifyField_self {s : String} {g : JValue → JValue}
    {fs : List (String × JValue)} :
    lookupF s (modifyField s g fs) = (lookupF s fs).map g := by
  induction fs with
  | nil => rfl
  | cons p fs ih =>
      obtain ⟨k, v⟩ := p
      by_cases hk : k = s
      · subst hk
        rw [modifyField_cons_self]
        simp [lookupF]
      · simp only [modifyField, List.map_cons, if_neg hk]
        simp only [lookupF, if_neg hk]
        simpa [modifyField] using ih

theorem lookupF_modifyField_ne {k s : String} {g : JValue → JValue}
    {fs : List (String × JValue)} (h : s ≠ k) :
    lookupF k (modifyField s g fs) = lookupF k fs := by
  induction fs with
  | nil => rfl
  | cons p fs ih =>
      obtain ⟨k2, v⟩ := p
      by_cases hk : k2 = s
      · subst hk
        have h2 : ¬(k2 = k) := h
        rw [modifyField_cons_self]
        simp only [lookupF, if_neg h2]
        simpa [modifyField] using ih
      · simp only [modifyField, List.map_cons, if_neg hk]
        by_cases h2 : k2 = k
        · simp [lookupF, h2]
        · simp only [lookupF, if_neg h2]
          simpa [modifyField] using ih

theorem lookupF_append {k : String} {as bs : List (String × JValue)} :
    lookupF k (as ++ bs) =
      match lookupF k as with
      | some v => some v
      | none => lookupF k bs := by
  induction as with
  | nil => rfl
  | cons p as ih =>
      obtain ⟨k2, v⟩ := p
      by_cases h2 : k2 = k
      · simp [lookupF, h2]
      · simp only [List.cons_append, lookupF, if_neg h2]
        exact ih

theorem lookupF_setField_ne {k k2 : String} {v : JValue}
    {fs : List (String × JValue)} (h : k ≠ k2) :
    lookupF k (setField fs k2 v) = lookupF k fs := by
  rw [setField]
  split
  · exact lookupF_modifyField_ne (Ne.symm h)
  · rw [lookupF_append]
    cases hl : lookupF k fs with
    | some w => rfl
    | none =>
        have h2 : ¬(k2 = k) := fun he => h he.symm
        simp [lookupF, h2]

/-! ### Claims C4, C5, C9 (insert and two-phase update) -/

/-- Claim C4: for every request context and every document that passes
schema validation, `insertOne` persists the document together with a
`changelogs` field equal to a one-element sequence whose single entry has
an empty `changes` list and carries the context's token, ip and endpoint
(and the commit timestamp), and the returned stored document has no `_id`
field. -/
theorem insertOne_emptyChangelog (collectionName : String)
    (joiValidate : List (String × JValue) → Option String × List (String × JValue))
    (rc : IRequestContext) (now : Nat) (newId : JValue)
    (document : List (String × JValue)) (store : List StoredDoc)
    (hok : (joiValidate document).1 = none) :
    insertOne collectionName joiValidate rc now newId document store
      = (store ++ [⟨setField (serialize document) "_id" newId,
                    [⟨rc.ip, rc.token, rc.endpoint, now, []⟩]⟩],
         .ok ⟨removeField "_id" (setField (serialize document) "_id" newId),
              [⟨rc.ip, rc.token, rc.endpoint, now, []⟩]⟩) ∧
    hasKey (removeField "_id" (setField (serialize document) "_id" newId)) "_id"
      = false := by
  constructor
  · simp only [insertOne, validate, hok]
    rfl
  · exact hasKey_removeField_self

/-- Witness for C4 at a concrete document and validator. -/
theorem insertOne_emptyChangelog_witness :
    ((fun _ : List (String × JValue) => ((none : Option String),
        ([] : List (String × JValue)))) [("someField", JValue.str "x")]).1 = none ∧
    (insertOne "storageTestCollection"
        (fun _ => (none, [])) ⟨"tok", "ip", "ep"⟩ 7 (.str "id0")
        [("someField", JValue.str "x")] []
      = ([⟨setField [("someField", JValue.str "x")] "_id" (.str "id0"),
           [⟨"ip", "tok", "ep", 7, []⟩]⟩],
         .ok ⟨removeField "_id"
                (setField [("someField", JValue.str "x")] "_id" (.str "id0")),
              [⟨"ip", "tok", "ep", 7, []⟩]⟩) ∧
      hasKey (removeField "_id"
        (setField [("someField", JValue.str "x")] "_id" (.str "id0"))) "_id"
        = false) := by
  refine ⟨rfl, ?_⟩
  have h := insertOne_emptyChangelog "storageTestCollection"
    (fun _ => (none, [])) ⟨"tok", "ip", "ep"⟩ 7 (.str "id0")
    [("someField", JValue.str "x")] [] rfl
  simpa using h

/-- Claim C5: `originalDocument` is a deep copy — the prepare phase writes
nothing to the store, any caller mutation of the returned copy between
fetch and commit leaves the commit closure's captured before-state (and
hence the changelog it builds) unchanged, and that changelog diffs the
pristine serialized fetched state against the supplied update only. -/
theorem findOneAndUpdate_deepCopy_frame (store : List StoredDoc)
    (fetched documentUpdate : List (String × JValue))
    (mutate : List (String × JValue) → List (String × JValue))
    (rc : IRequestContext) (now : Nat) :
    (findOneAndUpdatePrepare store fetched).1 = store ∧
    commitChangelog rc now
        (mutateCallerCopy (findOneAndUpdatePrepare store fetched).2 mutate)
        documentUpdate
      = commitChangelog rc now (findOneAndUpdatePrepare store fetched).2
        documentUpdate ∧
    (commitChangelog rc now
        (mutateCallerCopy (findOneAndUpdatePrepare store fetched).2 mutate)
        documentUpdate).changes
      = diffV (.obj (removeField "changelogs" fetched))
          (.obj (mergeFields (removeField "changelogs" fetched)
            (removeField "changelogs" documentUpdate))) :=
  ⟨rfl, rfl, rfl⟩

/-- Claim C9: `insertOne` discards the value returned by schema validation
and persists a serialization of the raw input: every field of the input
other than the driver's `_id` is stored and returned verbatim, regardless
of what the validator's strip-unknown pass returned as its value. -/
theorem insertOne_persistsRawInput (collectionName : String)
    (joiValidate : List (String × JValue) → Option String × List (String × JValue))
    (rc : IRequestContext) (now : Nat) (newId : JValue)
    (document : List (String × JValue)) (store : List StoredDoc) (k : String)
    (hok : (joiValidate document).1 = none) (hne : k ≠ "_id") :
    ∃ persisted returned,
      insertOne collectionName joiValidate rc now newId document store
        = (store ++ [persisted], .ok returned) ∧
      lookupF k persisted.body = lookupF k document ∧
      lookupF k returned.body = lookupF k document := by
  refine ⟨⟨setField (serialize document) "_id" newId,
           [createChangelog rc now [] []]⟩,
          ⟨removeField "_id" (setField (serialize document) "_id" newId),
           [createChangelog rc now [] []]⟩, ?_, ?_, ?_⟩
  · simp only [insertOne, validate, hok]
  · exact lookupF_setField_ne hne
  · rw [show (⟨removeField "_id" (setField (serialize document) "_id" newId),
        [createChangelog rc now [] []]⟩ : StoredDoc).body
      = removeField "_id" (setField (serialize document) "_id" newId) from rfl]
    rw [lookupF_removeField_ne hne]
    exact lookupF_setField_ne hne

/-- Witness for C9: a validator that strips the unknown field `extra`
(its returned value lacks the field), yet the persisted and returned
documents both still carry it. -/
theorem insertOne_persistsRawInput_witness :
    ((fun d : List (String × JValue) => ((none : Option String),
        removeField "extra" d)) [("someField", JValue.str "x"),
          ("extra", JValue.str "kept")]).1 = none ∧
    hasKey ((fun d : List (String × JValue) => ((none : Option String),
        removeField "extra" d)) [("someField", JValue.str "x"),
          ("extra", JValue.str "kept")]).2 "extra" = false ∧
    (∃ persisted returned,
      insertOne "storageTestCollection"
          (fun d => (none, removeField "extra" d)) ⟨"tok", "ip", "ep"⟩ 7
          (.str "id0")
          [("someField", JValue.str "x"), ("extra", JValue.str "kept")] []
        = ([] ++ [persisted], .ok returned) ∧
      lookupF "extra" persisted.body
        = lookupF "extra" [("someField", JValue.str "x"),
            ("extra", JValue.str "kept")] ∧
      lookupF "extra" returned.body
        = lookupF "extra" [("someField", JValue.str "x"),
            ("extra", JValue.str "kept")]) := by
  refine ⟨rfl, rfl, ?_⟩
  exact insertOne_persistsRawInput "storageTestCollection"
    (fun d => (none, removeField "extra" d)) ⟨"tok", "ip", "ep"⟩ 7
    (.str "id0") [("someField", JValue.str "x"), ("extra", JValue.str "kept")]
    [] "extra" rfl (by decide)


/-! ### Claims C6, C7, C8, C10 -/

theorem dateToFilter_none {k : String} {iso : String}
    (h1 : k ≠ "purchasedAfter") (h2 : k ≠ "updatedAfter")
    (h3 : k ≠ "shouldShipBy") : dateToFilter k iso = none := by
  unfold dateToFilter
  split <;> simp_all

/-- Claim C6 (amended): in `findMany`'s filter translation, a date-valued
entry under one of the three recognized operator keys is rewritten to the
corresponding strict comparison on its target field; a date-valued entry
under any other key is NOT passed through as an equality — `dateToFilter`
falls off its `switch` and returns `undefined`, so the native-filter
construction fails (`_.fromPairs` throws a `TypeError`). -/
theorem findMany_dateFilter (k iso : String) :
    translateEntry (k, .date iso) = dateToFilter k iso ∧
    dateToFilter "purchasedAfter" iso = some ("purchaseDate", .gt iso) ∧
    dateToFilter "updatedAfter" iso = some ("lastChanged", .gt iso) ∧
    dateToFilter "shouldShipBy" iso = some ("latestShipDate", .lt iso) ∧
    (k ≠ "purchasedAfter" → k ≠ "updatedAfter" → k ≠ "shouldShipBy" →
      mongoFilter [(k, .date iso)] = none) := by
  refine ⟨rfl, rfl, rfl, rfl, ?_⟩
  intro h1 h2 h3
  simp only [mongoFilter, List.filter, truthyFilterValue, mongoFilterEntries,
    translateEntry, dateToFilter_none h1 h2 h3]

/-- Witness for the amended C6: the three operators translate at a
concrete date, and a date under the unrecognized key `birthday` makes the
translation fail. -/
theorem findMany_dateFilter_witness :
    dateToFilter "purchasedAfter" "2020-05-27T13:02:21.435Z"
      = some ("purchaseDate", .gt "2020-05-27T13:02:21.435Z") ∧
    mongoFilter [("birthday", .date "2020-05-27T13:02:21.435Z")] = none :=
  ⟨(findMany_dateFilter "purchasedAfter" "2020-05-27T13:02:21.435Z").2.1,
   (findMany_dateFilter "birthday" "2020-05-27T13:02:21.435Z").2.2.2.2
     (by decide) (by decide) (by decide)⟩

/-- Counterexample for claim C6 as stated: the claim asserts a date-valued
entry under a key other than the three operators is passed through to the
native filter as an equality test on that key; at the concrete filter
`{birthday: <date>}` the translation instead produces no filter at all
(the `undefined` pair makes `_.fromPairs` throw), so no equality entry is
ever produced. -/
theorem findMany_dateFilter_counterexample :
    mongoFilter [("birthday", .date "2020-05-27T13:02:21.435Z")] = none ∧
    mongoFilter [("birthday", .date "2020-05-27T13:02:21.435Z")]
      ≠ some [("birthday", .eqTo (.date "2020-05-27T13:02:21.435Z"))] := by
  refine ⟨rfl, ?_⟩
  intro h
  rw [show mongoFilter [("birthday", .date "2020-05-27T13:02:21.435Z")]
    = none from rfl] at h
  exact Option.noConfusion h

/-- Does the character string start with the pattern (first argument)? -/
def beginsWithChars : List Char → List Char → Bool
  | [], _ => true
  | _ :: _, [] => false
  | c :: cs, d :: ds => c == d && beginsWithChars cs ds

/-- Does the character string contain the pattern anywhere? -/
def containsChars (pat : List Char) : List Char → Bool
  | [] => beginsWithChars pat []
  | d :: ds => beginsWithChars pat (d :: ds) || containsChars pat ds

/-- Substring test (used to state which names an error message carries). -/
def strContains (s pat : String) : Bool :=
  containsChars pat.toList s.toList

/-- Claim C7 (amended): when validation fails, `insertOne` raises an error
whose message carries the underlying schema violation, but it names the
collection (`collectionName`), not the document type — and nothing is
persisted: the store is returned unchanged. -/
theorem insertOne_validationFailure (collectionName : String)
    (joiValidate : List (String × JValue) → Option String × List (String × JValue))
    (rc : IRequestContext) (now : Nat) (newId : JValue)
    (document : List (String × JValue)) (store : List StoredDoc) (msg : String)
    (herr : (joiValidate document).1 = some msg) :
    insertOne collectionName joiValidate rc now newId document store
      = (store, .error ("Error validating \x27" ++ collectionName
          ++ "\x27 document: " ++ msg)) := by
  simp only [insertOne, validate, herr]

/-- Counterexample for claim C7 as stated: a store constructed with
document type `widget` over collection `things` rejects an invalid
document with a message that names the collection and the violation but
never the document type `widget` (storage.ts line 140 interpolates
`collectionName`; the `src/unnamed/part_005` variant, line 132, uses
`documentName` instead). -/
theorem insertOne_validationFailure_counterexample :
    (insertOne "things" (fun _ => (some "boom", [])) ⟨"tok", "ip", "ep"⟩ 0
        JValue.null [("someField", JValue.str "x")] []).2
      = .error "Error validating \x27things\x27 document: boom" ∧
    strContains "Error validating \x27things\x27 document: boom" "widget"
      = false ∧
    strContains "Error validating \x27things\x27 document: boom" "things"
      = true ∧
    strContains "Error validating \x27things\x27 document: boom" "boom"
      = true := by
  refine ⟨rfl, ?_, ?_, ?_⟩ <;> decide

/-- Witness for the amended C7: the error path evaluated at the same
concrete store, leaving the (empty) store unchanged. -/
theorem insertOne_validationFailure_witness :
    insertOne "things" (fun _ => (some "boom", [])) ⟨"tok", "ip", "ep"⟩ 0
        JValue.null [("someField", JValue.str "x")] []
      = ([], .error "Error validating \x27things\x27 document: boom") :=
  insertOne_validationFailure "things" (fun _ => (some "boom", []))
    ⟨"tok", "ip", "ep"⟩ 0 JValue.null [("someField", JValue.str "x")] []
    "boom" rfl

/-- Claim C8: `ensureIndexes` creates exactly the desired specifications
whose key pattern occurs among no existing index, and drops exactly the
existing indexes whose key pattern occurs in no desired specification and
is not the primary-key pattern `{_id: 1}` — comparison is by key-pattern
identity, never by name — hence an already-converged desired set creates
and drops nothing, and the primary-key index is never dropped. -/
theorem ensureIndexes_reconciliation
    (indexes existingIndexes : List IndexSpecification) :
    (∀ i, i ∈ (ensureIndexes indexes existingIndexes).1 ↔
      i ∈ indexes ∧ ∀ e ∈ existingIndexes, e.key ≠ i.key) ∧
    (∀ e, e ∈ (ensureIndexes indexes existingIndexes).2 ↔
      e ∈ existingIndexes ∧ (∀ i ∈ indexes, i.key ≠ e.key) ∧ e.key ≠ idKey) ∧
    ((∀ i ∈ indexes, ∃ e ∈ existingIndexes, e.key = i.key) →
      ensureIndexes indexes existingIndexes = ([], (ensureIndexes indexes existingIndexes).2)) ∧
    ((∀ i ∈ indexes, ∃ e ∈ existingIndexes, e.key = i.key) →
     (∀ e ∈ existingIndexes, e.key = idKey ∨ ∃ i ∈ indexes, i.key = e.key) →
      ensureIndexes indexes existingIndexes = ([], [])) ∧
    (∀ e ∈ (ensureIndexes indexes existingIndexes).2, e.key ≠ idKey) := by
  have hcreate : ∀ i, i ∈ (ensureIndexes indexes existingIndexes).1 ↔
      i ∈ indexes ∧ ∀ e ∈ existingIndexes, e.key ≠ i.key := by
    intro i
    simp only [ensureIndexes, List.mem_filter, Bool.not_eq_true', List.any_eq_false,
      decide_eq_true_eq, ne_eq]
  have hdrop : ∀ e, e ∈ (ensureIndexes indexes existingIndexes).2 ↔
      e ∈ existingIndexes ∧ (∀ i ∈ indexes, i.key ≠ e.key) ∧ e.key ≠ idKey := by
    intro e
    simp only [ensureIndexes, List.mem_filter, Bool.not_eq_true', List.any_eq_false,
      decide_eq_true_eq, decide_eq_false_iff_not, ne_eq, and_assoc]
  refine ⟨hcreate, hdrop, ?_, ?_, ?_⟩
  · intro hconv
    have h1 : (ensureIndexes indexes existingIndexes).1 = [] := by
      rw [List.eq_nil_iff_forall_not_mem]
      intro i hi
      obtain ⟨hmem, hnone⟩ := (hcreate i).mp hi
      obtain ⟨e, he, hek⟩ := hconv i hmem
      exact hnone e he hek
    rw [show ensureIndexes indexes existingIndexes
      = ((ensureIndexes indexes existingIndexes).1,
         (ensureIndexes indexes existingIndexes).2) from rfl, h1]
  · intro hconv hconv2
    have h1 : (ensureIndexes indexes existingIndexes).1 = [] := by
      rw [List.eq_nil_iff_forall_not_mem]
      intro i hi
      obtain ⟨hmem, hnone⟩ := (hcreate i).mp hi
      obtain ⟨e, he, hek⟩ := hconv i hmem
      exact hnone e he hek
    have h2 : (ensureIndexes indexes existingIndexes).2 = [] := by
      rw [List.eq_nil_iff_forall_not_mem]
      intro e he
      obtain ⟨hmem, hnone, hid⟩ := (hdrop e).mp he
      rcases hconv2 e hmem with hk | ⟨i, hi, hik⟩
      · exact hid hk
      · exact hnone i hi hik
    rw [show ensureIndexes indexes existingIndexes
      = ((ensureIndexes indexes existingIndexes).1,
         (ensureIndexes indexes existingIndexes).2) from rfl, h1, h2]
  · intro e he
    exact ((hdrop e).mp he).2.2

/-- Witness for C8, mirroring the spec's bootstrap scenario: desired
`{A, B}` against `{_id}` creates both and drops nothing; reconfigured to
`{A}` against `{A, B, _id}` it drops exactly `B`; and the converged state
`{A}` against `{A, _id}` is a fixed point. -/
theorem ensureIndexes_reconciliation_witness :
    ensureIndexes
        [⟨[("someField", -1)], "ixA"⟩, ⟨[("companyId", 1)], "ixB"⟩]
        [⟨idKey, "autoIndex"⟩]
      = ([⟨[("someField", -1)], "ixA"⟩, ⟨[("companyId", 1)], "ixB"⟩], []) ∧
    ensureIndexes [⟨[("someField", -1)], "ixA"⟩]
        [⟨[("someField", -1)], "ixA"⟩, ⟨[("companyId", 1)], "ixB"⟩,
         ⟨idKey, "autoIndex"⟩]
      = ([], [⟨[("companyId", 1)], "ixB"⟩]) ∧
    ensureIndexes [⟨[("someField", -1)], "ixA"⟩]
        [⟨[("someField", -1)], "ixA"⟩, ⟨idKey, "autoIndex"⟩]
      = ([], []) := by
  refine ⟨by rfl, by rfl, ?_⟩
  exact (ensureIndexes_reconciliation [⟨[("someField", -1)], "ixA"⟩]
    [⟨[("someField", -1)], "ixA"⟩, ⟨idKey, "autoIndex"⟩]).2.2.2.1
    (by decide) (by decide)

/-- Claim C10: in storage.ts's `findOneSubdocumentAndUpdate`, a matched
parent without a value at `subdocumentPath` fails with the `TypeError`
raised by calling `.find` on `undefined`, never with the store's
NotFoundError; equivalently, the NotFoundError branch is reachable only
when the parent actually has a value at `subdocumentPath`. -/
theorem findOneSubdocumentAndUpdate_absentField (documentName : String)
    (originalDocument : List (String × JValue)) (subdocumentPath : String)
    (pred : JValue → Bool) :
    (lookupF subdocumentPath originalDocument = none →
      findOneSubdocumentAndUpdate documentName originalDocument
        subdocumentPath pred = .typeError) ∧
    (∀ msg, findOneSubdocumentAndUpdate documentName originalDocument
        subdocumentPath pred = .notFoundError msg →
      ∃ v, lookupF subdocumentPath originalDocument = some v) := by
  constructor
  · intro h
    simp [findOneSubdocumentAndUpdate, h]
  · intro msg hr
    cases hl : lookupF subdocumentPath originalDocument with
    | some v => exact ⟨v, rfl⟩
    | none =>
        rw [findOneSubdocumentAndUpdate, hl] at hr
        exact FindSubdocResult.noConfusion hr

/-- Witness for C10: a document without the `subResource` field makes the
call end in the `TypeError`, not the NotFoundError. -/
theorem findOneSubdocumentAndUpdate_absentField_witness :
    lookupF "subResource" [("someField", JValue.str "yomama")] = none ∧
    findOneSubdocumentAndUpdate "test" [("someField", JValue.str "yomama")]
      "subResource" (fun _ => true) = .typeError :=
  ⟨rfl, (findOneSubdocumentAndUpdate_absentField "test"
    [("someField", JValue.str "yomama")] "subResource" (fun _ => true)).1 rfl⟩


/-! ### Pointed diffs: a document changed at exactly one place -/

theorem diffCommon_refl_aux {xs : List JValue}
    (h : ∀ x ∈ xs, diffV x x = []) : ∀ n, diffCommon n xs xs = [] := by
  induction xs with
  | nil => intro n; rfl
  | cons x xs ih =>
      intro n
      simp only [diffCommon]
      rw [h x (List.mem_cons_self _ _)]
      simp only [List.map_nil, List.nil_append]
      exact ih (fun y hy => h y (List.mem_cons_of_mem _ hy)) (n+1)

theorem diffFieldsL_nil_of {zs gs : List (String × JValue)}
    (h : ∀ k w, (k, w) ∈ zs → lookupF k gs = some w ∧ diffV w w = []) :
    diffFieldsL zs gs = [] := by
  induction zs with
  | nil => rfl
  | cons p zs ih =>
      obtain ⟨k, w⟩ := p
      obtain ⟨hl, hd⟩ := h k w (List.mem_cons_self _ _)
      simp only [diffFieldsL, hl, hd, List.map_nil, List.nil_append]
      exact ih (fun k2 w2 hm => h k2 w2 (List.mem_cons_of_mem _ hm))

theorem diffFieldsR_nil_of {fs gs : List (String × JValue)}
    (h : ∀ p ∈ gs, hasKey fs p.1 = true) : diffFieldsR fs gs = [] := by
  rw [diffFieldsR, List.filter_eq_nil_iff.mpr ?_]
  · rfl
  · intro p hp
    simp [h p hp]

theorem diffBeyond_refl {xs : List JValue} : diffBeyond xs xs = [] := by
  rw [diffBeyond, if_neg (lt_irrefl _)]
  simp [List.drop_length, delEditsFrom]

theorem diffV_refl : ∀ v, wf v = true → diffV v v = [] := by
  apply JValue.sind (P := fun v => wf v = true → diffV v v = [])
  intro v ih hwf
  match v with
  | .null => rfl
  | .bool b => simp [diffV]
  | .num n => simp [diffV]
  | .str s => simp [diffV]
  | .arr xs =>
      simp only [diffV]
      rw [diffBeyond_refl,
        diffCommon_refl_aux
          (fun x hx => ih x (sizeOf_mem_arr hx) (wf_arr_iff.mp hwf x hx)) 0]
      rfl
  | .obj fs =>
      rw [wf_obj_iff] at hwf
      simp only [diffV]
      rw [diffFieldsL_nil_of ?left, diffFieldsR_nil_of ?right]
      · rfl
      case left =>
          intro k w hmem
          exact ⟨lookupF_of_mem_nodup hwf.1 hmem,
            ih w (sizeOf_mem_obj (p := (k, w)) hmem) (hwf.2 (k, w) hmem)⟩
      case right =>
          intro p hp
          exact hasKey_iff.mpr ⟨p.2, by rwa [Prod.mk.eta]⟩

/-- Which values are JSON scalars. -/
def isScalar : JValue → Bool
  | .null => true
  | .bool _ => true
  | .num _ => true
  | .str _ => true
  | .arr _ => false
  | .obj _ => false

theorem diffV_scalar {a b : JValue} (ha : isScalar a = true)
    (hb : isScalar b = true) (hne : a ≠ b) :
    diffV a b = [.edited [] a b] := by
  cases a <;> simp only [isScalar] at ha <;> try cases ha
  all_goals (cases b <;> simp only [isScalar] at hb <;> try cases hb)
  all_goals first
    | rfl
    | exact absurd rfl hne
    | (simp only [diffV]
       rw [if_neg (fun he => hne (by rw [he]))])

theorem lookupF_split {s : String} {v : JValue} {fs : List (String × JValue)}
    (h : lookupF s fs = some v) :
    ∃ pre post, fs = pre ++ (s, v) :: post ∧ hasKey pre s = false := by
  induction fs with
  | nil => simp [lookupF] at h
  | cons p fs ih =>
      obtain ⟨k2, w⟩ := p
      by_cases hk : k2 = s
      · subst hk
        simp only [lookupF, if_pos rfl] at h
        injection h with h2
        subst h2
        exact ⟨[], fs, rfl, rfl⟩
      · simp only [lookupF, if_neg hk] at h
        obtain ⟨pre, post, heq, hpre⟩ := ih h
        refine ⟨(k2, w) :: pre, post, by rw [heq]; rfl, ?_⟩
        rw [hasKey_cons, Bool.or_eq_false_iff]
        exact ⟨by simpa using hk, hpre⟩

theorem hasKey_modifyField {s : String} {g : JValue → JValue}
    {fs : List (String × JValue)} {k : String} :
    hasKey (modifyField s g fs) k = hasKey fs k := by
  induction fs with
  | nil => rfl
  | cons p fs ih =>
      obtain ⟨k2, v⟩ := p
      by_cases hk : k2 = s <;>
        simp only [modifyField, List.map_cons, if_pos, if_neg, hk] <;>
        simp_all [hasKey, modifyField]

theorem diffFieldsL_append {as bs gs : List (String × JValue)} :
    diffFieldsL (as ++ bs) gs = diffFieldsL as gs ++ diffFieldsL bs gs := by
  induction as with
  | nil => rfl
  | cons p as ih =>
      obtain ⟨k, v⟩ := p
      simp only [List.cons_append, diffFieldsL]
      rw [show List.append as bs = as ++ bs from rfl, ih, List.append_assoc]

theorem find?_of_findIdx? :
    ∀ {xs : List JValue} {p : JValue → Bool} {i : Nat} {x : JValue},
    xs.findIdx? p = some i → xs[i]? = some x → xs.find? p = some x := by
  intro xs
  induction xs with
  | nil => intro p i x h1 h2; simp at h1
  | cons y ys ih =>
      intro p i x h1 h2
      rw [List.findIdx?_cons] at h1
      split at h1
      · injection h1 with hi
        subst hi
        rw [List.getElem?_cons_zero] at h2
        injection h2 with hx
        subst hx
        simp [List.find?, *]
      · rw [List.findIdx?_succ, Option.map_eq_some'] at h1
        obtain ⟨j, hj, hji⟩ := h1
        subst hji
        rw [List.getElem?_cons_succ] at h2
        have hcond : p y = false := by
          rename_i hc
          simpa using hc
        simp only [List.find?, hcond]
        exact ih hj h2


theorem diffV_modifyField {fs : List (String × JValue)} {s : String}
    {g : JValue → JValue} {v : JValue}
    (hwf : wf (.obj fs) = true) (hv : lookupF s fs = some v) :
    diffV (.obj fs) (.obj (modifyField s g fs)) =
      (diffV v (g v)).map (pathCons (.key s)) := by
  have hwf2 := hwf
  rw [wf_obj_iff] at hwf2
  obtain ⟨pre, post, heq, hpre⟩ := lookupF_split hv
  subst heq
  obtain ⟨-, hpost, -⟩ := keysNodup_mid hwf2.1
  have hlookup : ∀ k (w : JValue), (k, w) ∈ pre ++ (s, v) :: post →
      lookupF k (pre ++ (s, v) :: post) = some w :=
    fun k w hm => lookupF_of_mem_nodup hwf2.1 hm
  have hne : ∀ k (w : JValue), ((k, w) ∈ pre ∨ (k, w) ∈ post) → k ≠ s := by
    rintro k w (hm | hm) rfl
    · rw [hasKey_iff.mpr ⟨w, hm⟩] at hpre; cases hpre
    · rw [hasKey_iff.mpr ⟨w, hm⟩] at hpost; cases hpost
  simp only [diffV]
  rw [diffFieldsR_nil_of ?keysR, List.append_nil, diffFieldsL_append]
  case keysR =>
      intro p hp
      rw [modifyField, List.mem_map] at hp
      obtain ⟨q, hq, rfl⟩ := hp
      have hkeep : (if q.1 = s then (q.1, g q.2) else q).1 = q.1 := by
        split <;> rfl
      rw [hkeep]
      exact hasKey_iff.mpr ⟨q.2, by rwa [Prod.mk.eta]⟩
  rw [diffFieldsL_nil_of ?preNil, List.nil_append]
  case preNil =>
      intro k w hmem
      refine ⟨?_, diffV_refl w (hwf2.2 (k, w) (List.mem_append_left _ hmem))⟩
      rw [lookupF_modifyField_ne (Ne.symm (hne k w (Or.inl hmem)))]
      exact hlookup k w (List.mem_append_left _ hmem)
  simp only [diffFieldsL, lookupF_modifyField_self, hv, Option.map_some']
  rw [diffFieldsL_nil_of ?postNil, List.append_nil]
  case postNil =>
      intro k w hmem
      refine ⟨?_, diffV_refl w (hwf2.2 (k, w)
        (List.mem_append_right _ (List.mem_cons_of_mem _ hmem)))⟩
      rw [lookupF_modifyField_ne (Ne.symm (hne k w (Or.inr hmem)))]
      exact hlookup k w (List.mem_append_right _ (List.mem_cons_of_mem _ hmem))

theorem modifyIdx_length {i : Nat} {g : JValue → JValue} {xs : List JValue} :
    (modifyIdx i g xs).length = xs.length := by
  induction xs generalizing i with
  | nil => cases i <;> rfl
  | cons x xs ih => cases i <;> simp [modifyIdx, ih]

theorem diffCommon_modifyIdx :
    ∀ (xs : List JValue) (n i : Nat) (g : JValue → JValue) (x : JValue),
    (∀ y ∈ xs, wf y = true) → xs[i]? = some x →
    diffCommon n xs (modifyIdx i g xs) =
      (diffV x (g x)).map (pathCons (.idx (n + i))) := by
  intro xs
  induction xs with
  | nil => intro n i g x hwf hx; simp at hx
  | cons y ys ih =>
      intro n i g x hwf hx
      cases i with
      | zero =>
          rw [List.getElem?_cons_zero] at hx
          injection hx with hx
          subst hx
          simp only [modifyIdx, diffCommon]
          rw [diffCommon_refl_aux
            (fun z hz => diffV_refl z (hwf z (List.mem_cons_of_mem _ hz))) (n+1)]
          simp
      | succ j =>
          rw [List.getElem?_cons_succ] at hx
          simp only [modifyIdx, diffCommon]
          rw [diffV_refl y (hwf y (List.mem_cons_self _ _))]
          simp only [List.map_nil, List.nil_append]
          rw [ih (n+1) j g x (fun z hz => hwf z (List.mem_cons_of_mem _ hz)) hx,
            show n + 1 + j = n + (j + 1) from by omega]

theorem diffV_modifyIdx {xs : List JValue} {i : Nat} {g : JValue → JValue}
    {x : JValue} (hwf : wf (.arr xs) = true) (hx : xs[i]? = some x) :
    diffV (.arr xs) (.arr (modifyIdx i g xs)) =
      (diffV x (g x)).map (pathCons (.idx i)) := by
  simp only [diffV]
  have hlen : (modifyIdx i g xs).length = xs.length := modifyIdx_length
  rw [show diffBeyond xs (modifyIdx i g xs) = [] from ?_, List.nil_append]
  · rw [diffCommon_modifyIdx xs 0 i g x (wf_arr_iff.mp hwf) hx]
    simp
  · rw [diffBeyond, if_neg (by omega), hlen]
    simp [List.drop_length, delEditsFrom]

theorem mergeFields_modifyField {fs : List (String × JValue)} {s : String}
    {g : JValue → JValue} (hnd : keysNodup fs = true) :
    mergeFields fs (modifyField s g fs) = modifyField s g fs := by
  have hmap : fs.map (fun p => (p.1, (lookupF p.1 (modifyField s g fs)).getD p.2))
      = modifyField s g fs := by
    conv_rhs => rw [modifyField]
    apply List.map_congr_left
    intro p hp
    by_cases hps : p.1 = s
    · have hl : lookupF s fs = some p.2 := by
        rw [← hps]
        exact lookupF_of_mem_nodup hnd (by rwa [Prod.mk.eta])
      rw [hps, lookupF_modifyField_self, hl]
      simp
    · have hl : lookupF p.1 fs = some p.2 :=
        lookupF_of_mem_nodup hnd (by rwa [Prod.mk.eta])
      rw [lookupF_modifyField_ne (fun he => hps he.symm), hl, if_neg hps]
      simp
  have hfil : (modifyField s g fs).filter (fun p => !(hasKey fs p.1)) = [] := by
    rw [List.filter_eq_nil_iff]
    intro p hp
    rw [modifyField, List.mem_map] at hp
    obtain ⟨q, hq, rfl⟩ := hp
    have hkeep : (if q.1 = s then (q.1, g q.2) else q).1 = q.1 := by
      split <;> rfl
    have hhk : hasKey fs q.1 = true := hasKey_iff.mpr ⟨q.2, by rwa [Prod.mk.eta]⟩
    simp only [hkeep]
    simp [hhk]
  rw [show mergeFields fs (modifyField s g fs)
      = fs.map (fun p => (p.1, (lookupF p.1 (modifyField s g fs)).getD p.2))
        ++ (modifyField s g fs).filter (fun p => !(hasKey fs p.1)) from rfl,
    hmap, hfil, List.append_nil]

theorem removeField_modifyField_comm {fs : List (String × JValue)} {s ch : String}
    {g : JValue → JValue} (h : s ≠ ch) :
    removeField ch (modifyField s g fs) = modifyField s g (removeField ch fs) := by
  induction fs with
  | nil => rfl
  | cons p fs ih =>
      obtain ⟨k, v⟩ := p
      by_cases hk : k = s
      · subst hk
        have hbne : (k != ch) = true := by simpa using h
        rw [modifyField_cons_self]
        rw [show removeField ch ((k, g v) :: modifyField k g fs)
            = (k, g v) :: removeField ch (modifyField k g fs) from by
          simp [removeField, List.filter_cons, hbne]]
        rw [show removeField ch ((k, v) :: fs) = (k, v) :: removeField ch fs from by
          simp [removeField, List.filter_cons, hbne]]
        rw [modifyField_cons_self, ih]
      · rw [show modifyField s g ((k, v) :: fs)
            = (k, v) :: modifyField s g fs from by simp [modifyField, hk]]
        by_cases hch : k = ch
        · subst hch
          rw [show removeField k ((k, v) :: modifyField s g fs)
              = removeField k (modifyField s g fs) from by
            simp [removeField, List.filter_cons]]
          rw [show removeField k ((k, v) :: fs) = removeField k fs from by
            simp [removeField, List.filter_cons]]
          exact ih
        · have hbne : (k != ch) = true := by simpa using hch
          rw [show removeField ch ((k, v) :: modifyField s g fs)
              = (k, v) :: removeField ch (modifyField s g fs) from by
            simp [removeField, List.filter_cons, hbne]]
          rw [show removeField ch ((k, v) :: fs)
              = (k, v) :: removeField ch fs from by
            simp [removeField, List.filter_cons, hbne]]
          rw [show modifyField s g ((k, v) :: removeField ch fs)
              = (k, v) :: modifyField s g (removeField ch fs) from by
            simp [modifyField, hk]]
          rw [ih]

theorem wf_removeField {fs : List (String × JValue)} {k : String}
    (h : wf (.obj fs) = true) : wf (.obj (removeField k fs)) = true := by
  rw [wf_obj_iff] at h ⊢
  exact ⟨keysNodup_filter h.1, fun p hp => h.2 p (List.mem_of_mem_filter hp)⟩


/-- Claim C1: for a parent document whose array at `subdocumentPath`
contains an element satisfying the predicate,
`findOneSubdocumentAndUpdate` returns that very element of
`documentReference[subdocumentPath]` as the subdocument reference (a live
alias into the parent, so the caller's mutation of one scalar key through
it is a mutation of the parent at `[subdocumentPath, i, mutatedKey]` —
`mutateSubdocument`), and the changelog entry built by
`commit(documentReference)` then contains exactly one `Edited` record,
whose path is `[subdocumentPath, i, mutatedKey]` with the old value as
`lhs` and the new value as `rhs`. -/
theorem findOneSubdocumentAndUpdate_aliasedCommit (documentName : String)
    (rc : IRequestContext) (now : Nat) (store : List StoredDoc)
    (doc : List (String × JValue)) (subdocumentPath : String)
    (pred : JValue → Bool) (elems : List JValue) (i : Nat)
    (sub : List (String × JValue)) (mutatedKey : String) (oldV newV : JValue)
    (hwf : wf (.obj doc) = true)
    (hs : lookupF subdocumentPath doc = some (.arr elems))
    (hfind : elems.findIdx? pred = some i)
    (hget : elems[i]? = some (.obj sub))
    (hm : lookupF mutatedKey sub = some oldV)
    (hold : isScalar oldV = true) (hnew : isScalar newV = true)
    (hneV : oldV ≠ newV) (hch : subdocumentPath ≠ "changelogs") :
    findOneSubdocumentAndUpdate documentName doc subdocumentPath pred
      = .ok doc (.obj sub) ∧
    (commitChangelog rc now (findOneAndUpdatePrepare store doc).2
        (mutateSubdocument doc subdocumentPath i mutatedKey newV)).changes
      = [.edited [.key subdocumentPath, .idx i, .key mutatedKey] oldV newV] := by
  constructor
  · simp only [findOneSubdocumentAndUpdate, hs, find?_of_findIdx? hfind hget]
    rfl
  · have hwfA : wf (.obj (removeField "changelogs" doc)) = true := wf_removeField hwf
    have hndA : keysNodup (removeField "changelogs" doc) = true :=
      (wf_obj_iff.mp hwfA).1
    have hsA : lookupF subdocumentPath (removeField "changelogs" doc)
        = some (.arr elems) := by
      rw [lookupF_removeField_ne hch]
      exact hs
    have hwfarr : wf (.arr elems) = true :=
      (wf_obj_iff.mp hwfA).2 (subdocumentPath, .arr elems) (lookupF_mem hsA)
    have hwfsub : wf (.obj sub) = true :=
      wf_arr_iff.mp hwfarr (.obj sub) (List.getElem?_mem hget)
    rw [show (commitChangelog rc now (findOneAndUpdatePrepare store doc).2
        (mutateSubdocument doc subdocumentPath i mutatedKey newV)).changes
      = diffV (.obj (removeField "changelogs" doc))
          (.obj (mergeFields (removeField "changelogs" doc)
            (removeField "changelogs" (modifyField subdocumentPath
              (mutateArray i mutatedKey newV) doc)))) from rfl]
    rw [removeField_modifyField_comm hch, mergeFields_modifyField hndA,
      diffV_modifyField hwfA hsA]
    rw [show mutateArray i mutatedKey newV (.arr elems)
      = .arr (modifyIdx i (mutateElement mutatedKey newV) elems) from rfl]
    rw [diffV_modifyIdx hwfarr hget]
    rw [show mutateElement mutatedKey newV (.obj sub)
      = .obj (modifyField mutatedKey (fun _ => newV) sub) from rfl]
    rw [diffV_modifyField hwfsub hm]
    rw [diffV_scalar hold hnew hneV]
    rfl

/-- The parent document of the C1 witness scenario (after the pattern of
the repository test `storage finds and updates subdocument`). -/
def exampleParent : List (String × JValue) :=
  [("someField", .str "yomama"),
   ("subResource", .arr
     [.obj [("subResourceId", .str "40"), ("hello", .str "it is me")],
      .obj [("subResourceId", .str "41"), ("hello", .str "how are you")]])]

/-- The predicate of the C1 witness scenario: select the subdocument with
id `41`. -/
def exampleSubPredicate : JValue → Bool
  | .obj sub =>
      match lookupF "subResourceId" sub with
      | some (.str id) => id == "41"
      | _ => false
  | _ => false

/-- Witness for C1 on the concrete scenario of the repository test:
mutating `hello` of the second subdocument through the reference and
committing yields exactly the single `Edited` record at
`[subResource, 1, hello]`. -/
theorem findOneSubdocumentAndUpdate_aliasedCommit_witness :
    findOneSubdocumentAndUpdate "test" exampleParent "subResource"
        exampleSubPredicate
      = .ok exampleParent
          (.obj [("subResourceId", .str "41"), ("hello", .str "how are you")]) ∧
    (commitChangelog ⟨"tok", "ip", "ep"⟩ 5 (findOneAndUpdatePrepare [] exampleParent).2
        (mutateSubdocument exampleParent "subResource" 1 "hello"
          (.str "can you hear me"))).changes
      = [.edited [.key "subResource", .idx 1, .key "hello"]
          (.str "how are you") (.str "can you hear me")] :=
  findOneSubdocumentAndUpdate_aliasedCommit "test" ⟨"tok", "ip", "ep"⟩ 5 []
    exampleParent "subResource" exampleSubPredicate
    [.obj [("subResourceId", .str "40"), ("hello", .str "it is me")],
     .obj [("subResourceId", .str "41"), ("hello", .str "how are you")]]
    1 [("subResourceId", .str "41"), ("hello", .str "how are you")]
    "hello" (.str "how are you") (.str "can you hear me")
    rfl rfl rfl rfl rfl rfl rfl
    (by intro h; injection h with h2; exact absurd h2 (by decide))
    (by decide)

end MongodbStorage
